import Mathlib

/-!
Verification development for the janql storage engine (an LSM-style
embedded key-value store).  The Rust source is shallowly embedded:

* Rust `String` keys and values are byte strings, compared bytewise;
  we model them as `List Nat` (each element a byte value) ordered by the
  lexicographic order on lists, which is exactly byte-lexicographic
  comparison of Rust strings.  The UTF-8 validity checks performed by
  `String::from_utf8` in the source succeed on every byte string that was
  itself produced from a Rust string, so on the byte-string model they are
  the identity and are noted in comments where they occur.
* Files are byte lists; a `File` handle together with seeks and
  `read_exact` calls becomes explicit positional slicing of the byte list.
* `std::collections::BTreeMap` is modelled as a key-sorted association
  list (`mapInsert` / `mapGet` / `mapPred` below); every map built by the
  engine is sorted, which is an invariant of the model mirroring the
  BTreeMap invariant.
* Loops become fuel-indexed structural recursions; each call site passes
  fuel strictly larger than the number of bytes still to be consumed,
  which bounds the iteration count of every loop in the source (every
  iteration consumes at least one byte).
* `io::Result` and panics become `Except Unit`; operations whose only
  effects are in-memory are total functions.
* `SystemTime::now()` is modelled by a logical clock threaded through the
  engine state; each call to `now()` for a filename timestamp yields the
  current clock value and advances it, mirroring a strictly monotonic
  microsecond clock.
-/

/-- Byte strings: Rust `String` / `Vec<u8>` contents as lists of byte values. -/
abbrev Str := List Nat

/-- Little-endian bytes of `x as u32` (`u32::to_le_bytes`), including the
`as u32` truncation performed by the source on `usize` lengths. -/
def u32Bytes (n : Nat) : List Nat :=
  [n % 256, n / 256 % 256, n / 65536 % 256, n / 16777216 % 256]

/-- Little-endian bytes of a `u64` (`u64::to_le_bytes`), with truncation. -/
def u64Bytes (n : Nat) : List Nat :=
  [n % 256, n / 256 % 256, n / 65536 % 256, n / 16777216 % 256,
   n / 4294967296 % 256, n / 1099511627776 % 256,
   n / 281474976710656 % 256, n / 72057594037927936 % 256]

/-- Value of a little-endian byte list (`u32::from_le_bytes` on 4 bytes,
`u64::from_le_bytes` on 8 bytes). -/
def leNum (bs : List Nat) : Nat :=
  bs.foldr (fun b acc => b + 256 * acc) 0

/-- Model of `read_exact` into a buffer of `n` bytes from the byte list
`bs`: returns the bytes read and the remaining suffix, or `none` when
fewer than `n` bytes remain (an `UnexpectedEof` error in the source). -/
def readExact (n : Nat) (bs : List Nat) : Option (List Nat × List Nat) :=
  if n ≤ bs.length then some (bs.take n, bs.drop n) else none

/-- The tombstone marker `u32::MAX` (src/sstable/mod.rs). -/
def TOMBSTONE : Nat := 4294967295

/-- Target block size, 4 KiB (src/sstable/mod.rs). -/
def BLOCK_SIZE : Nat := 4096

/-- Memtable flush threshold, 4 MiB (src/database.rs). -/
def MEMTABLE_THRESHOLD : Nat := 4194304

/-- WAL opcode for a set record (src/wal.rs). -/
def OP_SET : Nat := 1

/-- WAL opcode for a delete record (src/wal.rs). -/
def OP_DEL : Nat := 2

/-- Sorted association list standing for `BTreeMap`: insert-or-replace
keeping keys in strictly increasing order. -/
def mapInsert {α : Type} (k : Str) (v : α) : List (Str × α) → List (Str × α)
  | [] => [(k, v)]
  | (k2, v2) :: rest =>
    if k < k2 then (k, v) :: (k2, v2) :: rest
    else if k = k2 then (k, v) :: rest
    else (k2, v2) :: mapInsert k v rest

/-- Lookup in the association list (`BTreeMap::get`). -/
def mapGet {α : Type} (k : Str) : List (Str × α) → Option α
  | [] => none
  | (k2, v) :: rest => if k = k2 then some v else mapGet k rest

/-- Model of `map.range(..=k).next_back()`: on a sorted association list
this returns the entry with the greatest key that is at most `k`. -/
def mapPred {α : Type} (k : Str) : List (Str × α) → Option (Str × α)
  | [] => none
  | (k2, v2) :: rest =>
    if k2 ≤ k then some ((mapPred k rest).getD (k2, v2)) else mapPred k rest

/-- Keys strictly increasing: the `BTreeMap` invariant of the model. -/
def sortedMap {α : Type} (m : List (Str × α)) : Prop :=
  List.Pairwise (fun a b => a.1 < b.1) m

/-- In-memory table of recent mutations (src/memtable.rs).  The map sends
keys to `Option Str`; `none` is a tombstone. -/
structure MemTable where
  map : List (Str × Option Str)
  size_bytes : Nat

/-- MemTable::new. -/
def MemTable.new : MemTable := ⟨[], 0⟩

/-- MemTable::set: insert or replace, adjusting `size_bytes` exactly as the
source does, including the saturating subtraction of the replaced live
value length.  In Rust `key.len()` is the byte length, which is `List.length`
on the byte-string model. -/
def MemTable.set (mt : MemTable) (key value : Str) : MemTable :=
  match mapGet key mt.map with
  | some old =>
    let sb := match old with
      | some v => if v.length ≤ mt.size_bytes then mt.size_bytes - v.length else mt.size_bytes
      | none => mt.size_bytes
    ⟨mapInsert key (some value) mt.map, sb + value.length⟩
  | none =>
    ⟨mapInsert key (some value) mt.map, mt.size_bytes + key.length + value.length⟩

/-- MemTable::get: three-state result, `some (some v)` present live,
`some none` present as tombstone, `none` absent. -/
def MemTable.get (mt : MemTable) (key : Str) : Option (Option Str) :=
  mapGet key mt.map

/-- MemTable::del: insert a tombstone; `size_bytes` grows by the key length
only when the key was not present before. -/
def MemTable.del (mt : MemTable) (key : Str) : MemTable :=
  match mapGet key mt.map with
  | some _ => ⟨mapInsert key none mt.map, mt.size_bytes⟩
  | none => ⟨mapInsert key none mt.map, mt.size_bytes + key.length⟩

/-- MemTable::len. -/
def MemTable.len (mt : MemTable) : Nat := mt.map.length

/-- MemTable::iter: ordered traversal of the underlying map. -/
def MemTable.iter (mt : MemTable) : List (Str × Option Str) := mt.map

/-- MemTable::clear. -/
def MemTable.clear (_ : MemTable) : MemTable := MemTable.new

/-- Bytes appended to the WAL file by `WAL::set` (opcode, key length,
key bytes, value length, value bytes; all lengths little-endian u32). -/
def walSetBytes (key value : Str) : List Nat :=
  [OP_SET] ++ u32Bytes key.length ++ key ++ u32Bytes value.length ++ value

/-- Bytes appended to the WAL file by `WAL::del`. -/
def walDelBytes (key : Str) : List Nat :=
  [OP_DEL] ++ u32Bytes key.length ++ key

/-- One WAL record for a `(key, Option value)` operation. -/
def walRecordBytes (r : Str × Option Str) : List Nat :=
  match r.2 with
  | some v => walSetBytes r.1 v
  | none => walDelBytes r.1

/-- Byte image of a list of WAL records (what `WAL::batch_set` or a
sequence of appends leaves in the file). -/
def walRecordsBytes (rs : List (Str × Option Str)) : List Nat :=
  (rs.map walRecordBytes).flatten

/-- Result of one `WALIterator::next` call. -/
inductive WalStep where
  | eof
  | err
  | record (key : Str) (val : Option Str) (rest : List Nat)

/-- WALIterator::next (src/wal.rs lines 95-137): read the opcode byte
(clean EOF stops the iterator), the key length, the key, and for SET the
value length and value.  Any short read or unknown opcode is an error.
The `String::from_utf8` checks are the identity on the byte-string model. -/
def walNext (bs : List Nat) : WalStep :=
  match readExact 1 bs with
  | none => .eof
  | some (opb, r1) =>
    match readExact 4 r1 with
    | none => .err
    | some (lb, r2) =>
      match readExact (leNum lb) r2 with
      | none => .err
      | some (key, r3) =>
        if opb = [OP_SET] then
          match readExact 4 r3 with
          | none => .err
          | some (vlb, r4) =>
            match readExact (leNum vlb) r4 with
            | none => .err
            | some (val, r5) => .record key (some val) r5
        else if opb = [OP_DEL] then .record key none r3
        else .err

/-- WAL replay loop inside `Database::load` (src/database.rs lines 60-70):
each record is applied to the memtable; the `entry?` propagates the first
iterator error out of `load`.  Fuel-indexed; every iteration consumes at
least one byte, so fuel exceeding the byte count never runs out. -/
def walReplayFuel : Nat → List Nat → MemTable → Except Unit MemTable
  | 0, _, _ => .error ()
  | fuel + 1, bs, mt =>
    match walNext bs with
    | .eof => .ok mt
    | .err => .error ()
    | .record k v rest =>
      match v with
      | some v2 => walReplayFuel fuel rest (mt.set k v2)
      | none => walReplayFuel fuel rest (mt.del k)

/-- WAL replay of a whole byte list. -/
def walReplayAll (bs : List Nat) (mt : MemTable) : Except Unit MemTable :=
  walReplayFuel (bs.length + 1) bs mt

/-- SSTable builder state (src/sstable/builder.rs).  `file` is the byte
content written to disk so far. -/
structure SSTableBuilder where
  file : List Nat
  block_buffer : List Nat
  index : List (Str × Nat)
  current_offset : Nat
  first_key_in_block : Option Str

/-- SSTableBuilder::new: the file is created empty (truncating). -/
def SSTableBuilder.new : SSTableBuilder := ⟨[], [], [], 0, none⟩

/-- SSTableBuilder::write_entry_to_buffer: key length, key, then either the
value length and value or the tombstone marker, all appended to the block
buffer. -/
def SSTableBuilder.write_entry_to_buffer (b : SSTableBuilder) (key : Str)
    (value : Option Str) : SSTableBuilder :=
  match value with
  | some v =>
    { b with block_buffer :=
        b.block_buffer ++ u32Bytes key.length ++ key ++ u32Bytes v.length ++ v }
  | none =>
    { b with block_buffer :=
        b.block_buffer ++ u32Bytes key.length ++ key ++ u32Bytes TOMBSTONE }

/-- SSTableBuilder::flush_block: record the first key of the block in the
index at the current file offset, append the buffer to the file, advance
the offset, and reset buffer and first-key marker. -/
def SSTableBuilder.flush_block (b : SSTableBuilder) : SSTableBuilder :=
  if b.block_buffer = [] then b
  else
    let idx := match b.first_key_in_block with
      | some k => mapInsert k b.current_offset b.index
      | none => b.index
    { file := b.file ++ b.block_buffer
      block_buffer := []
      index := idx
      current_offset := b.current_offset + b.block_buffer.length
      first_key_in_block := none }

/-- SSTableBuilder::add: flush the current block first when appending this
entry would push the non-empty buffer past `BLOCK_SIZE`. -/
def SSTableBuilder.add (b : SSTableBuilder) (key value : Str) : SSTableBuilder :=
  let entry_size := 4 + key.length + 4 + value.length
  let b1 := if b.block_buffer ≠ [] ∧ BLOCK_SIZE < b.block_buffer.length + entry_size
    then b.flush_block else b
  let b2 := if b1.first_key_in_block = none
    then { b1 with first_key_in_block := some key } else b1
  b2.write_entry_to_buffer key (some value)

/-- SSTableBuilder::delete: like `add` but writes a tombstone entry. -/
def SSTableBuilder.delete (b : SSTableBuilder) (key : Str) : SSTableBuilder :=
  let entry_size := 4 + key.length + 4
  let b1 := if b.block_buffer ≠ [] ∧ BLOCK_SIZE < b.block_buffer.length + entry_size
    then b.flush_block else b
  let b2 := if b1.first_key_in_block = none
    then { b1 with first_key_in_block := some key } else b1
  b2.write_entry_to_buffer key none

/-- SSTableBuilder::finish: flush the residual block, append the index
region as `(key_len, key, offset_u64)` triples in key order, append the
8-byte index-start footer, and fsync.  Returns the final file content. -/
def SSTableBuilder.finish (b : SSTableBuilder) : List Nat :=
  let b := b.flush_block
  let index_offset := b.current_offset
  let idxBytes := (b.index.map (fun e => u32Bytes e.1.length ++ e.1 ++ u64Bytes e.2)).flatten
  b.file ++ idxBytes ++ u64Bytes index_offset

/-- Result of `SSTableReader::get` (src/sstable/reader.rs). -/
inductive SearchResult where
  | Found (v : Str)
  | NotFound
  | Deleted

/-- Open table reader: the file bytes plus the in-memory index map. -/
structure SSTableReader where
  file : List Nat
  index : List (Str × Nat)

/-- Index-region parse loop of `SSTableReader::new`: while the cursor has
not reached the end of the index data, read a key length (a short read
here breaks the loop), the key, and the 8-byte offset (short reads there
propagate as errors), inserting each pair into the index map.  The
`while cursor.position() < index_len` guard of the source is subsumed by
the first read: with no bytes left the 4-byte read fails and the loop
stops cleanly either way. -/
def parseIndexFuel : Nat → List Nat → List (Str × Nat) → Except Unit (List (Str × Nat))
  | 0, _, _ => .error ()
  | fuel + 1, bs, idx =>
    match readExact 4 bs with
    | none => .ok idx
    | some (lb, r1) =>
      match readExact (leNum lb) r1 with
      | none => .error ()
      | some (key, r2) =>
        match readExact 8 r2 with
        | none => .error ()
        | some (ob, r3) => parseIndexFuel fuel r3 (mapInsert key (leNum ob) idx)

/-- SSTableReader::new: require at least 8 bytes, read the footer, slice
out the index region, and parse it. -/
def SSTableReader.new (file : List Nat) : Except Unit SSTableReader :=
  let len := file.length
  if len < 8 then .error ()
  else
    let index_offset := leNum (file.drop (len - 8))
    let index_len := len - 8 - index_offset
    let index_data := (file.drop index_offset).take index_len
    match parseIndexFuel (index_data.length + 1) index_data [] with
    | .error _ => .error ()
    | .ok idx => .ok ⟨file, idx⟩

/-- Entry-scan loop of `SSTableReader::search_in_block` over the byte
suffix starting at the candidate block offset: a short read of the key
length breaks with `NotFound`; later short reads are errors; a matching
key yields `Found` or `Deleted`; a greater key yields `NotFound`; smaller
keys are skipped (seeking over the value bytes, none for a tombstone). -/
def searchEntriesFuel : Nat → List Nat → Str → Except Unit SearchResult
  | 0, _, _ => .error ()
  | fuel + 1, bs, key =>
    match readExact 4 bs with
    | none => .ok .NotFound
    | some (lb, r1) =>
      match readExact (leNum lb) r1 with
      | none => .error ()
      | some (k, r2) =>
        match readExact 4 r2 with
        | none => .error ()
        | some (vlb, r3) =>
          let v_len := leNum vlb
          if k = key then
            if v_len = TOMBSTONE then .ok .Deleted
            else
              match readExact v_len r3 with
              | none => .error ()
              | some (v, _) => .ok (.Found v)
          else if key < k then .ok .NotFound
          else
            if v_len ≠ TOMBSTONE then searchEntriesFuel fuel (r3.drop v_len) key
            else searchEntriesFuel fuel r3 key

/-- SSTableReader::get: find the greatest index key at most the lookup key
and scan from its offset; with no candidate block return `NotFound`. -/
def SSTableReader.get (r : SSTableReader) (key : Str) : Except Unit SearchResult :=
  match mapPred key r.index with
  | some (_, off) =>
    searchEntriesFuel ((r.file.drop off).length + 1) (r.file.drop off) key
  | none => .ok .NotFound

/-- Entry-scan loop of `SSTableReader::scan`: collect live pairs whose key
lies in `[start, stop]`, stop at the first key greater than `stop`, skip
value bytes otherwise; a short read of the key length breaks cleanly. -/
def scanEntriesFuel : Nat → List Nat → Str → Str → List (Str × Str) →
    Except Unit (List (Str × Str))
  | 0, _, _, _, _ => .error ()
  | fuel + 1, bs, start, stop, acc =>
    match readExact 4 bs with
    | none => .ok acc
    | some (lb, r1) =>
      match readExact (leNum lb) r1 with
      | none => .error ()
      | some (k, r2) =>
        match readExact 4 r2 with
        | none => .error ()
        | some (vlb, r3) =>
          let v_len := leNum vlb
          if start ≤ k ∧ k ≤ stop then
            if v_len ≠ TOMBSTONE then
              match readExact v_len r3 with
              | none => .error ()
              | some (v, r4) => scanEntriesFuel fuel r4 start stop (acc ++ [(k, v)])
            else scanEntriesFuel fuel r3 start stop acc
          else if stop < k then .ok acc
          else
            if v_len ≠ TOMBSTONE then scanEntriesFuel fuel (r3.drop v_len) start stop acc
            else scanEntriesFuel fuel r3 start stop acc

/-- SSTableReader::scan: locate the starting block by the same predecessor
lookup, defaulting to offset 0, then run the scan loop. -/
def SSTableReader.scan (r : SSTableReader) (start stop : Str) :
    Except Unit (List (Str × Str)) :=
  let start_offset := match mapPred start r.index with
    | some (_, off) => off
    | none => 0
  scanEntriesFuel ((r.file.drop start_offset).length + 1)
    (r.file.drop start_offset) start stop []

/-- Maximum u64 value, the invalid-state sentinel of `SSTableIterator`. -/
def U64MAX : Nat := 18446744073709551615

/-- Full-table iterator obtained from `IntoIterator for SSTableReader`:
the data region is iterated from offset 0 up to the index start read from
the footer (`u64::MAX` when the footer cannot be read). -/
structure SSTableIterator where
  file : List Nat
  current_offset : Nat
  end_offset : Nat

/-- SSTableReader::into_iter. -/
def SSTableReader.into_iter (r : SSTableReader) : SSTableIterator :=
  let len := r.file.length
  let e := if len < 8 then U64MAX
    else leNum (r.file.drop (len - 8))
  ⟨r.file, 0, e⟩

/-- SSTableIterator::next: stop at the sentinel or once the current offset
reaches the index start; a short read of the key length stops the
iterator, later short reads yield errors; afterwards the current offset is
the stream position behind the entry just read. -/
def sstIterNext (it : SSTableIterator) :
    Option (Except Unit ((Str × Option Str) × SSTableIterator)) :=
  if it.end_offset = U64MAX then none
  else if it.end_offset ≤ it.current_offset then none
  else
    let bs := it.file.drop it.current_offset
    match readExact 4 bs with
    | none => none
    | some (lb, r1) =>
      match readExact (leNum lb) r1 with
      | none => some (.error ())
      | some (key, r2) =>
        match readExact 4 r2 with
        | none => some (.error ())
        | some (vlb, r3) =>
          let v_len := leNum vlb
          if v_len = TOMBSTONE then
            some (.ok ((key, none),
              { it with current_offset := it.current_offset + 4 + leNum lb + 4 }))
          else
            match readExact v_len r3 with
            | none => some (.error ())
            | some (v, _) =>
              some (.ok ((key, some v),
                { it with current_offset := it.current_offset + 4 + leNum lb + 4 + v_len }))

/-- Decimal digits of a natural number as ASCII bytes (the filename
timestamp formatting of `format!`). -/
def natDigits (n : Nat) : Str := (Nat.toDigits 10 n).map Char.toNat

/-- ASCII bytes of the filename stem "sstable_". -/
def sstNameHead : Str := [115, 115, 116, 97, 98, 108, 101, 95]

/-- ASCII bytes of the filename stem "sstable_compacted_". -/
def sstCompNameHead : Str :=
  sstNameHead ++ [99, 111, 109, 112, 97, 99, 116, 101, 100, 95]

/-- ASCII bytes of the filename suffix ".sst". -/
def sstExt : Str := [46, 115, 115, 116]

/-- Model of `path.extension() == Some("sst")`: the name ends in ".sst"
with a non-empty stem. -/
def hasSstExt (name : Str) : Bool :=
  sstExt.isSuffixOf name && decide (4 < name.length)

/-- Directory contents: the WAL file bytes and the named data files. -/
structure DirState where
  wal : List Nat
  files : List (Str × List Nat)

/-- Compaction policy (src/database.rs). -/
inductive CompactionPolicy where
  | Disabled
  | Periodic (d : Nat)

/-- Engine state (src/database.rs), with the directory contents and the
logical clock threaded through. -/
structure Database where
  dir : DirState
  memtable : MemTable
  sstables : List SSTableReader
  compaction_policy : CompactionPolicy
  last_compaction_time : Nat
  clock : Nat

/-- Database::new: create the directory if missing and open (create,
append mode, no truncation) the WAL; the memtable and table list start
empty and existing directory contents are left untouched.
`last_compaction_time` is `now()`, consuming one clock tick. -/
def Database.new (d : DirState) : Database :=
  ⟨d, MemTable.new, [], .Disabled, 0, 1⟩

/-- Insertion step of the name sort used in `Database::load`
(`sstable_files.sort()` on paths, bytewise lexicographic). -/
def insertSortedName (x : Str × List Nat) :
    List (Str × List Nat) → List (Str × List Nat)
  | [] => [x]
  | y :: rest => if x.1 ≤ y.1 then x :: y :: rest else y :: insertSortedName x rest

/-- Ascending stable sort of directory entries by filename. -/
def sortByName (l : List (Str × List Nat)) : List (Str × List Nat) :=
  l.foldr insertSortedName []

/-- Database::load: replay the WAL into a fresh memtable (the first
iterator error propagates out of `load` through the `entry?`), then
collect the `*.sst` files, sort their paths in descending lexicographic
order and open a reader for each. -/
def Database.load (d : DirState) : Except Unit Database :=
  match walReplayAll d.wal MemTable.new with
  | .error e => .error e
  | .ok mt =>
    let sstable_files := d.files.filter (fun f => hasSstExt f.1)
    let sorted := (sortByName sstable_files).reverse
    match sorted.mapM (fun f => SSTableReader.new f.2) with
    | .error e => .error e
    | .ok readers =>
      .ok { dir := d, memtable := mt, sstables := readers,
            compaction_policy := .Disabled, last_compaction_time := 0, clock := 1 }

/-- Builder feed step shared by `Database::flush_memtable` and the merge
loop: live entries go through `add`, tombstones through `delete`. -/
def builderStep (b : SSTableBuilder) (e : Str × Option Str) : SSTableBuilder :=
  match e.2 with
  | some v => b.add e.1 v
  | none => b.delete e.1

/-- Database::flush_memtable: return unchanged when the memtable is empty;
otherwise build a new `sstable_<micros>.sst` from the ordered memtable
contents, open a reader on it and put it at the front of the table list,
then clear the memtable and truncate the WAL. -/
def Database.flush_memtable (db : Database) : Except Unit Database :=
  if db.memtable.len = 0 then .ok db
  else
    let timestamp := db.clock
    let sst_name := sstNameHead ++ natDigits timestamp ++ sstExt
    let builder := db.memtable.iter.foldl builderStep SSTableBuilder.new
    let file := builder.finish
    match SSTableReader.new file with
    | .error e => .error e
    | .ok r =>
      .ok { db with
        dir := { wal := [], files := db.dir.files ++ [(sst_name, file)] }
        memtable := db.memtable.clear
        sstables := r :: db.sstables
        clock := db.clock + 1 }

/-- Database::flush (panics on error in the source; the error value models
the panic). -/
def Database.flush (db : Database) : Except Unit Database :=
  db.flush_memtable

/-- Candidate selection of the compaction merge loop (src/database.rs
lines 265-276): scan the iterators in order, considering only those whose
peek yields `Ok`, and keep the first iterator holding the strictly
smallest key. -/
def mergeBest : List SSTableIterator → Nat → Option (Nat × Str) → Option (Nat × Str)
  | [], _, best => best
  | it :: rest, i, best =>
    match sstIterNext it with
    | some (.ok ((key, _), _)) =>
      match best with
      | none => mergeBest rest (i + 1) (some (i, key))
      | some (_, mk) =>
        if key < mk then mergeBest rest (i + 1) (some (i, key))
        else mergeBest rest (i + 1) best
    | _ => mergeBest rest (i + 1) best

/-- Advance step after emitting `key` from iterator `idx`: iterator `idx`
moves to its successor state `it2`; every other iterator whose peek is an
`Ok` with the same key is advanced past it (src/database.rs lines 288-298). -/
def mergeAdvance (key : Str) (idx : Nat) (it2 : SSTableIterator) :
    Nat → List SSTableIterator → List SSTableIterator
  | _, [] => []
  | i, it :: rest =>
    let it3 := if i = idx then it2
      else
        match sstIterNext it with
        | some (.ok ((k, _), itn)) => if k = key then itn else it
        | _ => it
    it3 :: mergeAdvance key idx it2 (i + 1) rest

/-- The k-way merge loop of `Database::compact`: pick the iterator with
the smallest current key, emit its entry (dropping tombstones), and
advance every iterator positioned at the same key.  Fuel bounds the
iteration count; each iteration consumes at least eight bytes of the
chosen iterator. -/
def mergeLoopFuel : Nat → List SSTableIterator → SSTableBuilder →
    Except Unit SSTableBuilder
  | 0, _, _ => .error ()
  | fuel + 1, its, builder =>
    match mergeBest its 0 none with
    | none => .ok builder
    | some (idx, _) =>
      match its[idx]? with
      | none => .error ()
      | some it =>
        match sstIterNext it with
        | some (.ok ((key, val), it2)) =>
          let builder := match val with
            | some v => builder.add key v
            | none => builder
          mergeLoopFuel fuel (mergeAdvance key idx it2 0 its) builder
        | _ => .error ()

/-- Database::compact: flush the memtable, return if no tables exist, take
the table readers, k-way merge their full streams into a fresh
`sstable_compacted_<micros>.sst`, delete every other `*.sst` in the
directory, and replace the table list with a single reader on the new
file.  The closing `now()` updates `last_compaction_time`. -/
def Database.compact (db : Database) : Except Unit Database :=
  match db.flush_memtable with
  | .error e => .error e
  | .ok db =>
    if db.sstables.isEmpty then .ok db
    else
      let iters := db.sstables.map SSTableReader.into_iter
      let timestamp := db.clock
      let db := { db with clock := db.clock + 1 }
      let new_sst_name := sstCompNameHead ++ natDigits timestamp ++ sstExt
      match mergeLoopFuel ((iters.map (fun it => it.file.length + 1)).sum + 1)
          iters SSTableBuilder.new with
      | .error e => .error e
      | .ok builder =>
        let newfile := builder.finish
        let files1 := db.dir.files ++ [(new_sst_name, newfile)]
        let files2 := files1.filter (fun f => !(hasSstExt f.1) || f.1 == new_sst_name)
        match SSTableReader.new newfile with
        | .error e => .error e
        | .ok r =>
          .ok { db with
            dir := { db.dir with files := files2 }
            sstables := [r]
            last_compaction_time := db.clock
            clock := db.clock + 1 }

/-- Database::try_trigger_compaction. -/
def Database.try_trigger_compaction (db : Database) : Except Unit Database :=
  match db.compaction_policy with
  | .Disabled => .ok db
  | .Periodic d =>
    if d ≤ db.clock - db.last_compaction_time then db.compact else .ok db

/-- Database::set_compaction_policy. -/
def Database.set_compaction_policy (db : Database) (p : CompactionPolicy) : Database :=
  { db with compaction_policy := p }

/-- Database::set: append the record to the WAL and fsync, insert into the
memtable, flush when the size threshold is reached, then consider
periodic compaction.  Errors model the panics of the `expect` calls. -/
def Database.set (db : Database) (key value : Str) : Except Unit Database :=
  let db := { db with dir := { db.dir with wal := db.dir.wal ++ walSetBytes key value } }
  let db := { db with memtable := db.memtable.set key value }
  match (if MEMTABLE_THRESHOLD ≤ db.memtable.size_bytes
      then db.flush_memtable else .ok db) with
  | .error e => .error e
  | .ok db => db.try_trigger_compaction

/-- Database::del: same pipeline with a tombstone. -/
def Database.del (db : Database) (key : Str) : Except Unit Database :=
  let db := { db with dir := { db.dir with wal := db.dir.wal ++ walDelBytes key } }
  let db := { db with memtable := db.memtable.del key }
  match (if MEMTABLE_THRESHOLD ≤ db.memtable.size_bytes
      then db.flush_memtable else .ok db) with
  | .error e => .error e
  | .ok db => db.try_trigger_compaction

/-- Database::batch_set: all records written back-to-back with one fsync,
then the memtable insertions in order, then one threshold check. -/
def Database.batch_set (db : Database) (entries : List (Str × Str)) :
    Except Unit Database :=
  let db := { db with dir := { db.dir with
    wal := db.dir.wal ++ (entries.map (fun (e : Str × Str) => walSetBytes e.1 e.2)).flatten } }
  let db := { db with
    memtable := entries.foldl (fun mt (e : Str × Str) => mt.set e.1 e.2) db.memtable }
  match (if MEMTABLE_THRESHOLD ≤ db.memtable.size_bytes
      then db.flush_memtable else .ok db) with
  | .error e => .error e
  | .ok db => db.try_trigger_compaction

/-- Newest-to-oldest walk over the sealed tables inside `Database::get`:
`Found` returns the value, `Deleted` returns absent, `NotFound` continues,
and a reader error is skipped like `NotFound`. -/
def sstWalk (key : Str) : List SSTableReader → Option Str
  | [] => none
  | sst :: rest =>
    match sst.get key with
    | .ok (.Found v) => some v
    | .ok .Deleted => none
    | .ok .NotFound => sstWalk key rest
    | .error _ => sstWalk key rest

/-- Database::get: consult the memtable first (its three-state answer is
final when the key is present), then walk the tables newest to oldest. -/
def Database.get (db : Database) (key : Str) : Option Str :=
  match db.memtable.get key with
  | some vo => vo
  | none => sstWalk key db.sstables

/-- UTF-8 bytes of the upper sentinel character U+10FFFF used by
`Database::get_by_prefix`. -/
def maxCharBytes : Str := [244, 143, 191, 191]

/-- Database::get_by_prefix: scan every sealed table from oldest to newest
over `[p, p ++ U+10FFFF]` (a failing scan is skipped), overlay the
memtable entries whose key starts with `p`, and emit the live values in
key order. -/
def Database.prefixGet (db : Database) (p : Str) : List Str :=
  let m1 := db.sstables.reverse.foldl (fun m sst =>
    match sst.scan p (p ++ maxCharBytes) with
    | .ok entries => entries.foldl (fun m e => mapInsert e.1 (some e.2) m) m
    | .error _ => m) ([] : List (Str × Option Str))
  let m2 := db.memtable.iter.foldl (fun m e =>
    if p.isPrefixOf e.1 then mapInsert e.1 e.2 m else m) m1
  (m2.map (fun e => e.2)).reduceOption

theorem u32Bytes_length (n : Nat) : (u32Bytes n).length = 4 := rfl

theorem u64Bytes_length (n : Nat) : (u64Bytes n).length = 8 := rfl

theorem leNum_u32 (n : Nat) (h : n < 4294967296) : leNum (u32Bytes n) = n := by
  simp only [leNum, u32Bytes, List.foldr]
  omega

theorem leNum_u64 (n : Nat) (h : n < 18446744073709551616) : leNum (u64Bytes n) = n := by
  simp only [leNum, u64Bytes, List.foldr]
  omega

theorem readExact_append (n : Nat) (xs ys : List Nat) (h : xs.length = n) :
    readExact n (xs ++ ys) = some (xs, ys) := by
  subst h
  simp [readExact, List.take_left, List.drop_left]

theorem readExact_none (n : Nat) (bs : List Nat) (h : bs.length < n) :
    readExact n bs = none := by
  simp only [readExact, ite_eq_right_iff]
  omega

theorem readExact_zero (bs : List Nat) : readExact 0 bs = some ([], bs) := by
  simp [readExact]

theorem readExact_elim (n : Nat) (bs t r : List Nat)
    (h : readExact n bs = some (t, r)) :
    t = bs.take n ∧ r = bs.drop n ∧ n ≤ bs.length := by
  by_cases hle : n ≤ bs.length
  · simp [readExact, hle] at h
    exact ⟨h.1.symm, h.2.symm, hle⟩
  · simp [readExact, hle] at h

theorem mapPred_mem {α : Type} (k : Str) (m : List (Str × α)) (p : Str × α)
    (h : mapPred k m = some p) : p ∈ m ∧ p.1 ≤ k := by
  induction m with
  | nil => simp [mapPred] at h
  | cons hd tl ih =>
    obtain ⟨k2, v2⟩ := hd
    by_cases hle : k2 ≤ k
    · simp only [mapPred, if_pos hle] at h
      cases hrec : mapPred k tl with
      | none =>
        simp [hrec] at h
        subst h
        exact ⟨List.mem_cons_self _ _, hle⟩
      | some q =>
        simp [hrec] at h
        subst h
        have := ih hrec
        exact ⟨List.mem_cons_of_mem _ this.1, this.2⟩
    · simp only [mapPred, if_neg hle] at h
      have := ih h
      exact ⟨List.mem_cons_of_mem _ this.1, this.2⟩

theorem mapPred_isSome {α : Type} (k : Str) (m : List (Str × α)) (q : Str × α)
    (hq : q ∈ m) (hle : q.1 ≤ k) : ∃ p, mapPred k m = some p := by
  induction m with
  | nil => simp at hq
  | cons hd tl ih =>
    obtain ⟨k2, v2⟩ := hd
    by_cases h2 : k2 ≤ k
    · exact ⟨(mapPred k tl).getD (k2, v2), by simp only [mapPred, if_pos h2]⟩
    · rcases List.mem_cons.mp hq with heq | htl
      · exfalso
        apply h2
        rw [heq] at hle
        exact hle
      · simp only [mapPred, if_neg h2]
        exact ih htl

theorem mapInsert_append {α : Type} (k : Str) (v : α) (m : List (Str × α))
    (h : ∀ p ∈ m, p.1 < k) : mapInsert k v m = m ++ [(k, v)] := by
  induction m with
  | nil => rfl
  | cons hd tl ih =>
    obtain ⟨k2, v2⟩ := hd
    have hk2 : k2 < k := h (k2, v2) (List.mem_cons_self _ _)
    have h1 : ¬ k < k2 := by
      intro hc
      exact absurd (lt_trans hc hk2) (lt_irrefl k)
    have h2 : ¬ k = k2 := by
      intro hc
      rw [hc] at hk2
      exact lt_irrefl k2 hk2
    simp only [mapInsert, if_neg h1, if_neg h2, List.cons_append, List.cons.injEq, true_and]
    exact ih (fun p hp => h p (List.mem_cons_of_mem _ hp))

theorem mapInsert_self_mem {α : Type} (k : Str) (v : α) (m : List (Str × α)) :
    (k, v) ∈ mapInsert k v m := by
  induction m with
  | nil => simp [mapInsert]
  | cons hd tl ih =>
    obtain ⟨k2, v2⟩ := hd
    by_cases h1 : k < k2
    · simp [mapInsert, h1]
    · by_cases h2 : k = k2
      · simp [mapInsert, h1, h2]
      · simp only [mapInsert, if_neg h1, if_neg h2]
        exact List.mem_cons_of_mem _ ih

theorem mapInsert_mem_of_ne {α : Type} (k : Str) (v : α) (m : List (Str × α))
    (p : Str × α) (hp : p ∈ m) (hne : p.1 ≠ k) : p ∈ mapInsert k v m := by
  induction m with
  | nil => simp at hp
  | cons hd tl ih =>
    obtain ⟨k2, v2⟩ := hd
    by_cases h1 : k < k2
    · simp only [mapInsert, if_pos h1]
      exact List.mem_cons_of_mem _ hp
    · by_cases h2 : k = k2
      · simp only [mapInsert, if_neg h1, if_pos h2]
        rcases List.mem_cons.mp hp with heq | htl
        · exfalso
          apply hne
          rw [heq, h2]
        · exact List.mem_cons_of_mem _ htl
      · simp only [mapInsert, if_neg h1, if_neg h2]
        rcases List.mem_cons.mp hp with heq | htl
        · rw [heq]
          exact List.mem_cons_self _ _
        · exact List.mem_cons_of_mem _ (ih htl)

theorem mapInsert_mem_elim {α : Type} (k : Str) (v : α) (m : List (Str × α))
    (p : Str × α) (hp : p ∈ mapInsert k v m) : p ∈ m ∨ p = (k, v) := by
  induction m with
  | nil =>
    simp [mapInsert] at hp
    right
    exact hp
  | cons hd tl ih =>
    obtain ⟨k2, v2⟩ := hd
    by_cases h1 : k < k2
    · simp only [mapInsert, if_pos h1] at hp
      rcases List.mem_cons.mp hp with heq | htl
      · right
        exact heq
      · left
        exact htl
    · by_cases h2 : k = k2
      · simp only [mapInsert, if_neg h1, if_pos h2] at hp
        rcases List.mem_cons.mp hp with heq | htl
        · right
          exact heq
        · left
          exact List.mem_cons_of_mem _ htl
      · simp only [mapInsert, if_neg h1, if_neg h2] at hp
        rcases List.mem_cons.mp hp with heq | htl
        · left
          rw [heq]
          exact List.mem_cons_self _ _
        · rcases ih htl with ha | hb
          · left
            exact List.mem_cons_of_mem _ ha
          · right
            exact hb

theorem sortedMap_append_single {α : Type} (m : List (Str × α)) (k : Str) (v : α)
    (hs : sortedMap m) (h : ∀ p ∈ m, p.1 < k) : sortedMap (m ++ [(k, v)]) := by
  unfold sortedMap at hs ⊢
  rw [List.pairwise_append]
  refine ⟨hs, List.pairwise_singleton _ _, ?_⟩
  intro p hp q hq
  rw [List.mem_singleton.mp hq]
  exact h p hp

/-- On-disk bytes of a single table entry: the framing written by
`write_entry_to_buffer` for a live value or a tombstone. -/
def entryBytes (e : Str × Option Str) : List Nat :=
  match e.2 with
  | some v => u32Bytes e.1.length ++ e.1 ++ u32Bytes v.length ++ v
  | none => u32Bytes e.1.length ++ e.1 ++ u32Bytes TOMBSTONE

/-- Byte image of the data region holding the given entries in order. -/
def dataBytes (l : List (Str × Option Str)) : List Nat :=
  (l.map entryBytes).flatten

/-- Byte image of the index region written by `finish`. -/
def idxRegionBytes (idx : List (Str × Nat)) : List Nat :=
  (idx.map (fun e => u32Bytes e.1.length ++ e.1 ++ u64Bytes e.2)).flatten

theorem dataBytes_nil : dataBytes [] = [] := rfl

theorem dataBytes_append (a b : List (Str × Option Str)) :
    dataBytes (a ++ b) = dataBytes a ++ dataBytes b := by
  simp [dataBytes]

theorem dataBytes_single (e : Str × Option Str) : dataBytes [e] = entryBytes e := by
  simp [dataBytes]

theorem dataBytes_cons (e : Str × Option Str) (l : List (Str × Option Str)) :
    dataBytes (e :: l) = entryBytes e ++ dataBytes l := by
  simp [dataBytes]

theorem entryBytes_ne_nil (e : Str × Option Str) : entryBytes e ≠ [] := by
  obtain ⟨k, vo⟩ := e
  cases vo <;> simp [entryBytes, u32Bytes]

theorem dataBytes_eq_nil_iff (l : List (Str × Option Str)) :
    dataBytes l = [] ↔ l = [] := by
  cases l with
  | nil => simp [dataBytes_nil]
  | cons e tl =>
    simp only [dataBytes_cons, List.append_eq_nil]
    constructor
    · intro h
      exact absurd h.1 (entryBytes_ne_nil e)
    · intro h
      exact absurd h (List.cons_ne_nil e tl)

/-- The shared body of `SSTableBuilder.add` and `SSTableBuilder.delete`:
maybe flush, set the pending first key, append the entry framing.  The
flush decision depends only on the computed entry size, which the lemmas
below keep abstract. -/
def addRaw (b : SSTableBuilder) (key : Str) (eb : List Nat) (esz : Nat) :
    SSTableBuilder :=
  let b1 := if b.block_buffer ≠ [] ∧ BLOCK_SIZE < b.block_buffer.length + esz
    then b.flush_block else b
  let b2 := if b1.first_key_in_block = none
    then { b1 with first_key_in_block := some key } else b1
  { b2 with block_buffer := b2.block_buffer ++ eb }

theorem add_eq_addRaw (b : SSTableBuilder) (k v : Str) :
    b.add k v = addRaw b k (entryBytes (k, some v)) (4 + k.length + 4 + v.length) := by
  simp only [SSTableBuilder.add, addRaw, entryBytes, SSTableBuilder.write_entry_to_buffer,
    List.append_assoc]

theorem delete_eq_addRaw (b : SSTableBuilder) (k : Str) :
    b.delete k = addRaw b k (entryBytes (k, none)) (4 + k.length + 4) := by
  simp only [SSTableBuilder.delete, addRaw, entryBytes, SSTableBuilder.write_entry_to_buffer,
    List.append_assoc]

theorem builderStep_eq_addRaw (b : SSTableBuilder) (e : Str × Option Str) :
    ∃ esz, builderStep b e = addRaw b e.1 (entryBytes e) esz := by
  obtain ⟨k, vo⟩ := e
  cases vo with
  | some v => exact ⟨_, add_eq_addRaw b k v⟩
  | none => exact ⟨_, delete_eq_addRaw b k⟩

theorem builderStep_some (b : SSTableBuilder) (k v : Str) :
    builderStep b (k, some v) = b.add k v := rfl

theorem builderStep_none (b : SSTableBuilder) (k : Str) :
    builderStep b (k, none) = b.delete k := rfl

/-- Invariant of the builder state after feeding the entries `l`: some
prefix `take m` has been flushed to the file, the rest sits in the block
buffer, the pending first key is the key of entry `m`, and every index
entry points at the byte offset of the entry whose key it carries, with
the very first entry indexed as soon as anything was flushed. -/
def BInv (l : List (Str × Option Str)) (b : SSTableBuilder) : Prop :=
  ∃ m, m ≤ l.length ∧
    b.file = dataBytes (l.take m) ∧
    b.block_buffer = dataBytes (l.drop m) ∧
    b.current_offset = (dataBytes (l.take m)).length ∧
    b.first_key_in_block = (l.get? m).map (fun q => q.1) ∧
    (∀ p ∈ b.index, ∃ i, i < m ∧ (l.get? i).map (fun q => q.1) = some p.1 ∧
      p.2 = (dataBytes (l.take i)).length) ∧
    sortedMap b.index ∧
    (0 < m → ∃ e0, l.get? 0 = some e0 ∧ (e0.1, 0) ∈ b.index)

theorem sortedMap_get_lt {α : Type} (l : List (Str × α)) (hs : sortedMap l)
    (i j : Nat) (hij : i < j) (ei ej : Str × α)
    (hi : l.get? i = some ei) (hj : l.get? j = some ej) : ei.1 < ej.1 := by
  rw [List.get?_eq_some] at hi hj
  obtain ⟨hi1, hi2⟩ := hi
  obtain ⟨hj1, hj2⟩ := hj
  have h := List.pairwise_iff_get.mp hs ⟨i, hi1⟩ ⟨j, hj1⟩ (Fin.mk_lt_mk.mpr hij)
  rw [hi2, hj2] at h
  exact h

theorem addRaw_BInv (l : List (Str × Option Str)) (e : Str × Option Str)
    (b : SSTableBuilder) (esz : Nat)
    (hinv : BInv l b) (hs : sortedMap (l ++ [e])) :
    BInv (l ++ [e]) (addRaw b e.1 (entryBytes e) esz) := by
  obtain ⟨m, hm, hfile, hbuf, hoff, hfk, hidx, hsortidx, hcov⟩ := hinv
  have hsl : sortedMap l :=
    List.Pairwise.sublist (List.sublist_append_left l [e]) hs
  have hidx2 : ∀ p ∈ b.index, ∃ i, i < m ∧
      ((l ++ [e]).get? i).map (fun q => q.1) = some p.1 ∧
      p.2 = (dataBytes ((l ++ [e]).take i)).length := by
    intro p hp
    obtain ⟨i, him, hk, hv⟩ := hidx p hp
    refine ⟨i, him, ?_, ?_⟩
    · rw [List.get?_append (lt_of_lt_of_le him hm)]
      exact hk
    · rw [List.take_append_of_le_length (le_of_lt (lt_of_lt_of_le him hm))]
      exact hv
  by_cases hflush : b.block_buffer ≠ [] ∧ BLOCK_SIZE < b.block_buffer.length + esz
  · -- the buffer flushes before this entry
    have hnem : m < l.length := by
      rcases lt_or_eq_of_le hm with h | h
      · exact h
      · exfalso
        apply hflush.1
        rw [hbuf, h, List.drop_length, dataBytes_nil]
    obtain ⟨em, hem⟩ : ∃ em, l.get? m = some em :=
      ⟨l.get ⟨m, hnem⟩, List.get?_eq_get hnem⟩
    have hfkm : b.first_key_in_block = some em.1 := by
      rw [hfk, hem]
      rfl
    have hres : addRaw b e.1 (entryBytes e) esz = ⟨b.file ++ b.block_buffer,
        entryBytes e, mapInsert em.1 b.current_offset b.index,
        b.current_offset + b.block_buffer.length, some e.1⟩ := by
      simp [addRaw, SSTableBuilder.flush_block, if_pos hflush, if_neg hflush.1, hfkm]
    rw [hres]
    refine ⟨l.length, ?_, ?_, ?_, ?_, ?_, ?_, ?_, ?_⟩
    · simp
    · rw [hfile, hbuf, ← dataBytes_append, List.take_append_drop,
        List.take_append_of_le_length (le_refl _), List.take_length]
    · rw [List.drop_append_of_le_length (le_refl _), List.drop_length,
        List.nil_append, dataBytes_single]
    · rw [hoff, hbuf, List.take_append_of_le_length (le_refl _), List.take_length,
        ← List.length_append, ← dataBytes_append, List.take_append_drop]
    · rw [List.get?_concat_length]
      rfl
    · intro p hp
      rcases mapInsert_mem_elim _ _ _ _ hp with hold | hnew
      · obtain ⟨i, him, hk, hv⟩ := hidx2 p hold
        exact ⟨i, lt_of_lt_of_le (lt_of_lt_of_le him hm) (by simp), hk, hv⟩
      · refine ⟨m, by simp [hnem], ?_, ?_⟩
        · rw [hnew, List.get?_append hnem, hem]
          rfl
        · rw [hnew, hoff, List.take_append_of_le_length hm]
    · have hlt : ∀ p ∈ b.index, p.1 < em.1 := by
        intro p hp
        obtain ⟨i, him, hk, _⟩ := hidx p hp
        obtain ⟨ei, hei⟩ : ∃ ei, l.get? i = some ei := by
          cases hq : l.get? i with
          | none => rw [hq] at hk; simp at hk
          | some q => exact ⟨q, rfl⟩
        have hei1 : ei.1 = p.1 := by
          rw [hei] at hk
          simpa using hk
        rw [← hei1]
        exact sortedMap_get_lt l hsl i m him ei em hei hem
      have hmi := mapInsert_append em.1 b.current_offset b.index hlt
      show sortedMap (mapInsert em.1 b.current_offset b.index)
      rw [hmi]
      exact sortedMap_append_single _ _ _ hsortidx hlt
    · intro _
      rcases Nat.eq_zero_or_pos m with hm0 | hmpos
      · refine ⟨em, ?_, ?_⟩
        · rw [List.get?_append (lt_of_le_of_lt (Nat.zero_le m) hnem), ← hm0, hem]
        · have hz : b.current_offset = 0 := by
            rw [hoff, hm0]
            rfl
          show (em.1, 0) ∈ mapInsert em.1 b.current_offset b.index
          rw [hz]
          exact mapInsert_self_mem _ _ _
      · obtain ⟨e0, h0, hmem0⟩ := hcov hmpos
        refine ⟨e0, ?_, ?_⟩
        · rw [List.get?_append (lt_of_lt_of_le hmpos hm), h0]
        · apply mapInsert_mem_of_ne _ _ _ _ hmem0
          have := sortedMap_get_lt l hsl 0 m hmpos e0 em h0 hem
          exact ne_of_lt this
  · -- no flush
    rcases lt_or_eq_of_le hm with hlt | heq
    · -- the buffer already has a pending first key
      obtain ⟨em, hem⟩ : ∃ em, l.get? m = some em :=
        ⟨l.get ⟨m, hlt⟩, List.get?_eq_get hlt⟩
      have hfkm : ¬ b.first_key_in_block = none := by
        rw [hfk, hem]
        simp
      have hres : addRaw b e.1 (entryBytes e) esz = ⟨b.file,
          b.block_buffer ++ entryBytes e, b.index, b.current_offset,
          b.first_key_in_block⟩ := by
        simp [addRaw, if_neg hflush, if_neg hfkm]
      rw [hres]
      refine ⟨m, ?_, ?_, ?_, ?_, ?_, hidx2, hsortidx, ?_⟩
      · simp only [List.length_append, List.length_singleton]
        omega
      · rw [List.take_append_of_le_length hm]
        exact hfile
      · rw [List.drop_append_of_le_length hm, dataBytes_append, dataBytes_single, ← hbuf]
      · rw [List.take_append_of_le_length hm]
        exact hoff
      · rw [List.get?_append hlt]
        exact hfk
      · intro hmpos
        obtain ⟨e0, h0, hmem0⟩ := hcov hmpos
        exact ⟨e0, by rw [List.get?_append (lt_of_lt_of_le hmpos hm)]; exact h0, hmem0⟩
    · -- the buffer is empty and the entry starts a new block
      have hfknone : b.first_key_in_block = none := by
        rw [hfk, heq, List.get?_eq_none.mpr (le_refl _)]
        rfl
      have hres : addRaw b e.1 (entryBytes e) esz = ⟨b.file,
          b.block_buffer ++ entryBytes e, b.index, b.current_offset,
          some e.1⟩ := by
        simp [addRaw, if_neg hflush, hfknone]
      rw [hres]
      refine ⟨m, ?_, ?_, ?_, ?_, ?_, hidx2, hsortidx, ?_⟩
      · simp only [List.length_append, List.length_singleton]
        omega
      · rw [List.take_append_of_le_length hm]
        exact hfile
      · rw [List.drop_append_of_le_length hm, dataBytes_append, dataBytes_single, ← hbuf]
      · rw [List.take_append_of_le_length hm]
        exact hoff
      · rw [heq, List.get?_concat_length]
        rfl
      · intro hmpos
        obtain ⟨e0, h0, hmem0⟩ := hcov hmpos
        exact ⟨e0, by rw [List.get?_append (lt_of_lt_of_le hmpos hm)]; exact h0, hmem0⟩

/-- The builder fed with all of `l`, as `Database::flush_memtable` and
`Database::compact` do. -/
def buildAll (l : List (Str × Option Str)) : SSTableBuilder :=
  l.foldl builderStep SSTableBuilder.new

theorem buildAll_BInv (l : List (Str × Option Str)) (hs : sortedMap l) :
    BInv l (buildAll l) := by
  induction l using List.reverseRecOn with
  | nil =>
    refine ⟨0, by simp, rfl, rfl, rfl, rfl, ?_, List.Pairwise.nil, ?_⟩
    · intro p hp
      cases hp
    · intro h
      exact absurd h (lt_irrefl 0)
  | append_singleton l e ih =>
    have hsl : sortedMap l :=
      List.Pairwise.sublist (List.sublist_append_left l [e]) hs
    obtain ⟨esz, heq⟩ := builderStep_eq_addRaw (buildAll l) e
    have hfold : buildAll (l ++ [e]) = builderStep (buildAll l) e := by
      unfold buildAll
      rw [List.foldl_append]
      rfl
    rw [hfold, heq]
    exact addRaw_BInv l e _ esz (ih hsl) hs

/-- What the final index of a table built from `l` guarantees: sorted,
every entry points at the byte offset of the entry whose key it names,
and the first entry of the table is indexed at offset 0. -/
def goodIndex (l : List (Str × Option Str)) (idx : List (Str × Nat)) : Prop :=
  sortedMap idx ∧
  (∀ p ∈ idx, ∃ i, i < l.length ∧ (l.get? i).map (fun q => q.1) = some p.1 ∧
    p.2 = (dataBytes (l.take i)).length) ∧
  (l ≠ [] → ∃ e0, l.get? 0 = some e0 ∧ (e0.1, 0) ∈ idx)

theorem flush_block_final (l : List (Str × Option Str)) (b : SSTableBuilder)
    (hinv : BInv l b) (hsl : sortedMap l) :
    b.flush_block.file = dataBytes l ∧
    b.flush_block.current_offset = (dataBytes l).length ∧
    goodIndex l b.flush_block.index := by
  obtain ⟨m, hm, hfile, hbuf, hoff, hfk, hidx, hsortidx, hcov⟩ := hinv
  by_cases hempty : b.block_buffer = []
  · have hml : m = l.length := by
      rcases lt_or_eq_of_le hm with h | h
      · exfalso
        rw [hbuf] at hempty
        have := (dataBytes_eq_nil_iff _).mp hempty
        rw [List.drop_eq_nil_iff_le] at this
        omega
      · exact h
    have hfb : b.flush_block = b := by
      simp [SSTableBuilder.flush_block, hempty]
    rw [hfb, hfile, hoff, hml, List.take_length]
    refine ⟨rfl, rfl, hsortidx, ?_, ?_⟩
    · intro p hp
      obtain ⟨i, him, hk, hv⟩ := hidx p hp
      exact ⟨i, by omega, hk, hv⟩
    · intro hne
      have hpos : 0 < m := by
        rw [hml]
        exact List.length_pos.mpr hne
      exact hcov hpos
  · have hnem : m < l.length := by
      rcases lt_or_eq_of_le hm with h | h
      · exact h
      · exfalso
        apply hempty
        rw [hbuf, h, List.drop_length, dataBytes_nil]
    obtain ⟨em, hem⟩ : ∃ em, l.get? m = some em :=
      ⟨l.get ⟨m, hnem⟩, List.get?_eq_get hnem⟩
    have hfkm : b.first_key_in_block = some em.1 := by
      rw [hfk, hem]
      rfl
    have hfb : b.flush_block = ⟨b.file ++ b.block_buffer, [],
        mapInsert em.1 b.current_offset b.index,
        b.current_offset + b.block_buffer.length, none⟩ := by
      simp [SSTableBuilder.flush_block, hempty, hfkm]
    rw [hfb]
    refine ⟨?_, ?_, ?_, ?_, ?_⟩
    · rw [hfile, hbuf, ← dataBytes_append, List.take_append_drop]
    · rw [hoff, hbuf, ← List.length_append, ← dataBytes_append, List.take_append_drop]
    · have hlt : ∀ p ∈ b.index, p.1 < em.1 := by
        intro p hp
        obtain ⟨i, him, hk, _⟩ := hidx p hp
        obtain ⟨ei, hei⟩ : ∃ ei, l.get? i = some ei := by
          cases hq : l.get? i with
          | none => rw [hq] at hk; simp at hk
          | some q => exact ⟨q, rfl⟩
        have hei1 : ei.1 = p.1 := by
          rw [hei] at hk
          simpa using hk
        rw [← hei1]
        exact sortedMap_get_lt l hsl i m him ei em hei hem
      show sortedMap (mapInsert em.1 b.current_offset b.index)
      rw [mapInsert_append em.1 b.current_offset b.index hlt]
      exact sortedMap_append_single _ _ _ hsortidx hlt
    · intro p hp
      rcases mapInsert_mem_elim _ _ _ _ hp with hold | hnew
      · obtain ⟨i, him, hk, hv⟩ := hidx p hold
        exact ⟨i, lt_of_lt_of_le him hm, hk, hv⟩
      · refine ⟨m, hnem, ?_, ?_⟩
        · rw [hnew, hem]
          rfl
        · rw [hnew, hoff]
    · intro _
      rcases Nat.eq_zero_or_pos m with hm0 | hmpos
      · refine ⟨em, by rw [← hm0, hem], ?_⟩
        have hz : b.current_offset = 0 := by
          rw [hoff, hm0]
          rfl
        show (em.1, 0) ∈ mapInsert em.1 b.current_offset b.index
        rw [hz]
        exact mapInsert_self_mem _ _ _
      · obtain ⟨e0, h0, hmem0⟩ := hcov hmpos
        refine ⟨e0, h0, ?_⟩
        apply mapInsert_mem_of_ne _ _ _ _ hmem0
        exact ne_of_lt (sortedMap_get_lt l hsl 0 m hmpos e0 em h0 hem)

theorem buildFinish (l : List (Str × Option Str)) (hs : sortedMap l) :
    ∃ idx, goodIndex l idx ∧
      (buildAll l).finish =
        dataBytes l ++ idxRegionBytes idx ++ u64Bytes (dataBytes l).length := by
  obtain ⟨h1, h2, h3⟩ := flush_block_final l (buildAll l) (buildAll_BInv l hs) hs
  refine ⟨(buildAll l).flush_block.index, h3, ?_⟩
  show SSTableBuilder.finish (buildAll l) = _
  unfold SSTableBuilder.finish
  simp only []
  rw [h1, h2]
  rfl

/-- Length bounds under which the u32 length prefixes of the entry framing
decode to the true lengths: keys shorter than 2^32 and values strictly
shorter than the tombstone marker (the 4 GiB - 1 limit of the format). -/
def entriesBounded (l : List (Str × Option Str)) : Prop :=
  ∀ e ∈ l, e.1.length < 4294967296 ∧ ∀ v, e.2 = some v → v.length < TOMBSTONE

theorem TOMBSTONE_lt : TOMBSTONE < 4294967296 := by decide

theorem entryBytes_len_ge (e : Str × Option Str) : 8 ≤ (entryBytes e).length := by
  obtain ⟨k, vo⟩ := e
  cases vo <;> simp [entryBytes, u32Bytes] <;> omega

/-- Result of a successful point lookup on an entry holding `vo`. -/
def foundResult (vo : Option Str) : SearchResult :=
  match vo with
  | some v => SearchResult.Found v
  | none => SearchResult.Deleted

theorem searchEntries_cons (f : Nat) (e : Str × Option Str) (R : List Nat)
    (key : Str) (hk : e.1.length < 4294967296)
    (hv : ∀ v, e.2 = some v → v.length < TOMBSTONE) :
    searchEntriesFuel (f + 1) (entryBytes e ++ R) key =
      if e.1 = key then Except.ok (foundResult e.2)
      else if key < e.1 then Except.ok SearchResult.NotFound
      else searchEntriesFuel f R key := by
  obtain ⟨k0, vo⟩ := e
  cases vo with
  | some v =>
    have hvb : v.length < TOMBSTONE := hv v rfl
    have hshape : entryBytes (k0, some v) ++ R =
        u32Bytes k0.length ++ (k0 ++ (u32Bytes v.length ++ (v ++ R))) := by
      simp [entryBytes, List.append_assoc]
    rw [hshape]
    simp only [searchEntriesFuel]
    rw [readExact_append 4 _ _ (u32Bytes_length _)]
    simp only [leNum_u32 _ hk]
    rw [readExact_append k0.length _ _ rfl]
    simp only []
    rw [readExact_append 4 _ _ (u32Bytes_length _)]
    simp only [leNum_u32 _ (lt_trans hvb TOMBSTONE_lt)]
    by_cases heq : k0 = key
    · rw [if_pos heq, if_pos heq]
      rw [if_neg (ne_of_lt hvb)]
      rw [readExact_append v.length _ _ rfl]
      simp [foundResult]
    · rw [if_neg heq, if_neg heq]
      by_cases hlt : key < k0
      · rw [if_pos hlt, if_pos hlt]
      · rw [if_neg hlt, if_neg hlt]
        rw [if_pos (ne_of_lt hvb)]
        rw [List.drop_left]
  | none =>
    have hshape : entryBytes (k0, none) ++ R =
        u32Bytes k0.length ++ (k0 ++ (u32Bytes TOMBSTONE ++ R)) := by
      simp [entryBytes, List.append_assoc]
    rw [hshape]
    simp only [searchEntriesFuel]
    rw [readExact_append 4 _ _ (u32Bytes_length _)]
    simp only [leNum_u32 _ hk]
    rw [readExact_append k0.length _ _ rfl]
    simp only []
    rw [readExact_append 4 _ _ (u32Bytes_length _)]
    simp only [leNum_u32 _ TOMBSTONE_lt]
    by_cases heq : k0 = key
    · rw [if_pos heq, if_pos heq]
      simp [foundResult]
    · rw [if_neg heq, if_neg heq]
      by_cases hlt : key < k0
      · rw [if_pos hlt, if_pos hlt]
      · rw [if_neg hlt, if_neg hlt]
        rw [if_neg (by simp)]

theorem searchEntries_finds (l2 : List (Str × Option Str)) (rest : List Nat)
    (k : Str) (vo : Option Str) (fuel : Nat)
    (hmem : (k, vo) ∈ l2) (hasc : sortedMap l2) (hb : entriesBounded l2)
    (hfuel : (dataBytes l2 ++ rest).length < fuel) :
    searchEntriesFuel fuel (dataBytes l2 ++ rest) k = Except.ok (foundResult vo) := by
  induction l2 generalizing fuel rest with
  | nil => simp at hmem
  | cons e tl ih =>
    cases fuel with
    | zero => exact absurd hfuel (Nat.not_lt_zero _)
    | succ f =>
      obtain ⟨hkb, hvb⟩ := hb e (List.mem_cons_self _ _)
      rw [dataBytes_cons, List.append_assoc,
        searchEntries_cons f e (dataBytes tl ++ rest) k hkb hvb]
      by_cases heq : e.1 = k
      · rw [if_pos heq]
        have hetl : e = (k, vo) := by
          rcases List.mem_cons.mp hmem with h | h
          · exact h.symm
          · exfalso
            have hlt := List.rel_of_pairwise_cons hasc h
            rw [heq] at hlt
            exact lt_irrefl k hlt
        rw [hetl]
      · rw [if_neg heq]
        have htl : (k, vo) ∈ tl := by
          rcases List.mem_cons.mp hmem with h | h
          · exfalso
            apply heq
            rw [← h]
          · exact h
        have hlt : e.1 < k := List.rel_of_pairwise_cons hasc htl
        rw [if_neg (fun hc => absurd (lt_trans hc hlt) (lt_irrefl k))]
        apply ih _ _ htl (List.Pairwise.of_cons hasc)
          (fun q hq => hb q (List.mem_cons_of_mem _ hq))
        have h8 := entryBytes_len_ge e
        have hsplit : (dataBytes (e :: tl)).length =
            (entryBytes e).length + (dataBytes tl).length := by
          rw [dataBytes_cons, List.length_append]
        simp only [List.length_append] at hfuel ⊢
        omega

theorem idxRegionBytes_cons (p : Str × Nat) (tl : List (Str × Nat)) :
    idxRegionBytes (p :: tl) =
      u32Bytes p.1.length ++ (p.1 ++ (u64Bytes p.2 ++ idxRegionBytes tl)) := by
  simp [idxRegionBytes, List.append_assoc]

theorem parseIndex_roundtrip (idx : List (Str × Nat)) (m : List (Str × Nat))
    (fuel : Nat)
    (hb : ∀ p ∈ idx, p.1.length < 4294967296 ∧ p.2 < 18446744073709551616)
    (hgt : ∀ p ∈ m, ∀ q ∈ idx, p.1 < q.1)
    (hsort : sortedMap idx)
    (hfuel : (idxRegionBytes idx).length < fuel) :
    parseIndexFuel fuel (idxRegionBytes idx) m = Except.ok (m ++ idx) := by
  induction idx generalizing m fuel with
  | nil =>
    cases fuel with
    | zero => exact absurd hfuel (Nat.not_lt_zero _)
    | succ f =>
      have hnil : idxRegionBytes [] = [] := rfl
      rw [hnil]
      simp only [parseIndexFuel, readExact_none 4 [] (by simp), List.append_nil]
  | cons p tl ih =>
    cases fuel with
    | zero => exact absurd hfuel (Nat.not_lt_zero _)
    | succ f =>
      obtain ⟨hkb, hob⟩ := hb p (List.mem_cons_self _ _)
      rw [idxRegionBytes_cons]
      simp only [parseIndexFuel]
      rw [readExact_append 4 _ _ (u32Bytes_length _)]
      simp only [leNum_u32 _ hkb]
      rw [readExact_append p.1.length _ _ rfl]
      simp only []
      rw [readExact_append 8 _ _ (u64Bytes_length _)]
      simp only [leNum_u64 _ hob]
      have hins : mapInsert p.1 p.2 m = m ++ [p] := by
        have := mapInsert_append p.1 p.2 m
          (fun q hq => hgt q hq p (List.mem_cons_self _ _))
        rw [this]
      rw [hins]
      have hres := ih (m ++ [p]) f
        (fun q hq => hb q (List.mem_cons_of_mem _ hq))
        (by
          intro x hx q hq
          rcases List.mem_append.mp hx with hxm | hxp
          · exact hgt x hxm q (List.mem_cons_of_mem _ hq)
          · rw [List.mem_singleton.mp hxp]
            exact List.rel_of_pairwise_cons hsort hq)
        (List.Pairwise.of_cons hsort)
        (by
          rw [idxRegionBytes_cons] at hfuel
          simp only [List.length_append, u32Bytes_length, u64Bytes_length] at hfuel
          omega)
      rw [hres, List.append_assoc, List.singleton_append]

/-- The byte image of a finished table for entries `l` and index `idx`. -/
def tableFileBytes (l : List (Str × Option Str)) (idx : List (Str × Nat)) : List Nat :=
  dataBytes l ++ idxRegionBytes idx ++ u64Bytes (dataBytes l).length

theorem dataBytes_take_le (l : List (Str × Option Str)) (i : Nat) :
    (dataBytes (l.take i)).length ≤ (dataBytes l).length := by
  conv_rhs => rw [← List.take_append_drop i l]
  rw [dataBytes_append, List.length_append]
  omega

theorem goodIndex_bounds (l : List (Str × Option Str)) (idx : List (Str × Nat))
    (hgidx : goodIndex l idx) (hb : entriesBounded l)
    (hdl : (dataBytes l).length < 18446744073709551616) :
    ∀ p ∈ idx, p.1.length < 4294967296 ∧ p.2 < 18446744073709551616 := by
  intro p hp
  obtain ⟨i, hi, hk, hv⟩ := hgidx.2.1 p hp
  obtain ⟨ei, hei⟩ : ∃ ei, l.get? i = some ei := by
    cases hq : l.get? i with
    | none => rw [hq] at hk; simp at hk
    | some q => exact ⟨q, rfl⟩
  have hmem : ei ∈ l := List.get?_mem hei
  have hk1 : ei.1 = p.1 := by
    rw [hei] at hk
    simpa using hk
  constructor
  · rw [← hk1]
    exact (hb ei hmem).1
  · rw [hv]
    exact lt_of_le_of_lt (dataBytes_take_le l i) hdl

theorem readerNew_built (l : List (Str × Option Str)) (idx : List (Str × Nat))
    (hgidx : goodIndex l idx) (hb : entriesBounded l)
    (hdl : (dataBytes l).length < 18446744073709551616) :
    SSTableReader.new (tableFileBytes l idx) =
      Except.ok ⟨tableFileBytes l idx, idx⟩ := by
  have hflen : (tableFileBytes l idx).length =
      (dataBytes l).length + (idxRegionBytes idx).length + 8 := by
    simp [tableFileBytes, u64Bytes]
    omega
  have hlen8 : ¬ (tableFileBytes l idx).length < 8 := by
    rw [hflen]
    omega
  have hfoot : (tableFileBytes l idx).drop ((tableFileBytes l idx).length - 8) =
      u64Bytes (dataBytes l).length := by
    have hassoc : tableFileBytes l idx =
        (dataBytes l ++ idxRegionBytes idx) ++ u64Bytes (dataBytes l).length := by
      simp [tableFileBytes, List.append_assoc]
    rw [hflen, hassoc]
    have hpre : (dataBytes l ++ idxRegionBytes idx).length =
        (dataBytes l).length + (idxRegionBytes idx).length := by
      simp
    rw [show (dataBytes l).length + (idxRegionBytes idx).length + 8 - 8 =
        (dataBytes l ++ idxRegionBytes idx).length by rw [hpre]; omega]
    exact List.drop_left _ _
  have hdata : (tableFileBytes l idx).drop (dataBytes l).length =
      idxRegionBytes idx ++ u64Bytes (dataBytes l).length := by
    have hassoc : tableFileBytes l idx =
        dataBytes l ++ (idxRegionBytes idx ++ u64Bytes (dataBytes l).length) := by
      simp [tableFileBytes, List.append_assoc]
    rw [hassoc]
    exact List.drop_left _ _
  simp only [SSTableReader.new]
  rw [if_neg hlen8, hfoot, leNum_u64 _ hdl, hdata, hflen]
  rw [show (dataBytes l).length + (idxRegionBytes idx).length + 8 - 8 -
      (dataBytes l).length = (idxRegionBytes idx).length by omega]
  rw [List.take_left]
  rw [parseIndex_roundtrip idx [] ((idxRegionBytes idx).length + 1)
    (goodIndex_bounds l idx hgidx hb hdl)
    (by intro p hp; cases hp)
    hgidx.1
    (Nat.lt_succ_self _)]
  rw [List.nil_append]

theorem sstGet_found (l : List (Str × Option Str)) (idx : List (Str × Nat))
    (hs : sortedMap l) (hb : entriesBounded l)
    (hgidx : goodIndex l idx)
    (k : Str) (vo : Option Str) (hmem : (k, vo) ∈ l) :
    SSTableReader.get ⟨tableFileBytes l idx, idx⟩ k =
      Except.ok (foundResult vo) := by
  obtain ⟨j, hj⟩ := List.mem_iff_get.mp hmem
  have hj2 : l.get? j.1 = some (k, vo) := by
    rw [List.get?_eq_get j.2, hj]
  have hne : l ≠ [] := by
    intro hc
    rw [hc] at hmem
    cases hmem
  obtain ⟨e0, h00, hm0⟩ := hgidx.2.2 hne
  have hle0 : e0.1 ≤ k := by
    rcases Nat.eq_zero_or_pos j.1 with hj0 | hjpos
    · rw [hj0] at hj2
      rw [h00] at hj2
      rw [show e0 = (k, vo) by injection hj2]
    · exact le_of_lt (sortedMap_get_lt l hs 0 j.1 hjpos e0 (k, vo) h00 hj2)
  obtain ⟨p, hpred⟩ := mapPred_isSome k idx (e0.1, 0) hm0 hle0
  obtain ⟨hpmem, hpk⟩ := mapPred_mem k idx p hpred
  obtain ⟨i0, hi0, hk0, hoff⟩ := hgidx.2.1 p hpmem
  obtain ⟨ei, hei⟩ : ∃ ei, l.get? i0 = some ei := by
    cases hq : l.get? i0 with
    | none => rw [hq] at hk0; simp at hk0
    | some q => exact ⟨q, rfl⟩
  have hei1 : ei.1 = p.1 := by
    rw [hei] at hk0
    simpa using hk0
  have hij : i0 ≤ j.1 := by
    by_contra hc
    push_neg at hc
    have := sortedMap_get_lt l hs j.1 i0 hc (k, vo) ei hj2 hei
    rw [hei1] at this
    exact absurd (lt_of_le_of_lt hpk this) (lt_irrefl _)
  have hdropfile : (tableFileBytes l idx).drop p.2 =
      dataBytes (l.drop i0) ++ (idxRegionBytes idx ++ u64Bytes (dataBytes l).length) := by
    have hsplit : dataBytes l = dataBytes (l.take i0) ++ dataBytes (l.drop i0) := by
      rw [← dataBytes_append, List.take_append_drop]
    have hassoc : tableFileBytes l idx =
        dataBytes (l.take i0) ++ (dataBytes (l.drop i0) ++
          (idxRegionBytes idx ++ u64Bytes (dataBytes l).length)) := by
      simp only [tableFileBytes]
      nth_rewrite 1 [hsplit]
      simp [List.append_assoc]
    rw [hassoc, hoff]
    exact List.drop_left _ _
  have hmem2 : (k, vo) ∈ l.drop i0 := by
    apply List.get?_mem (n := j.1 - i0)
    rw [List.get?_drop]
    rw [show i0 + (j.1 - i0) = j.1 by omega]
    exact hj2
  simp only [SSTableReader.get]
  rw [hpred]
  simp only []
  rw [hdropfile]
  exact searchEntries_finds (l.drop i0) _ k vo _ hmem2
    (List.Pairwise.sublist (List.drop_sublist _ _) hs)
    (fun q hq => hb q (List.Sublist.subset (List.drop_sublist _ _) hq))
    (Nat.lt_succ_self _)

/-- C8: for every strictly key-ascending sequence of entries fed to the
SSTable builder (`add` for live entries, `delete` for tombstones) followed
by `finish`, opening a reader on the resulting file and calling `get` for
any fed key returns `Found v` when the key was added with value `v` and
`Deleted` when it was tombstoned.  The side conditions are the format's
own limits: key lengths fit the u32 prefix, value lengths stay below the
tombstone marker, and the data region fits the u64 footer. -/
theorem c8_builder_reader_roundtrip (l : List (Str × Option Str))
    (hs : sortedMap l) (hb : entriesBounded l)
    (hdl : (dataBytes l).length < 18446744073709551616)
    (k : Str) (vo : Option Str) (hmem : (k, vo) ∈ l) :
    ∃ r, SSTableReader.new (buildAll l).finish = Except.ok r ∧
      SSTableReader.get r k = Except.ok (foundResult vo) := by
  obtain ⟨idx, hgidx, hfin⟩ := buildFinish l hs
  refine ⟨⟨tableFileBytes l idx, idx⟩, ?_, ?_⟩
  · rw [hfin]
    exact readerNew_built l idx hgidx hb hdl
  · exact sstGet_found l idx hs hb hgidx k vo hmem

/-- Witness for C8 at a concrete two-entry table holding one live entry
and one tombstone. -/
theorem c8_roundtrip_witness :
    ∃ r, SSTableReader.new (buildAll [([97], some [49]), ([98], none)]).finish =
        Except.ok r ∧
      SSTableReader.get r [98] = Except.ok (foundResult none) :=
  c8_builder_reader_roundtrip [([97], some [49]), ([98], none)]
    (by unfold sortedMap; decide) (by unfold entriesBounded; decide)
    (by decide) [98] none (by decide)

/-- C9: flushing twice yields the same engine state as flushing once; the
second flush returns the state unchanged because the first one left the
memtable empty, so all observable reads (get and prefix queries alike)
coincide and no additional table is created. -/
theorem flush_memtable_empties (db db2 : Database)
    (h : Database.flush_memtable db = Except.ok db2) : db2.memtable.len = 0 := by
  unfold Database.flush_memtable at h
  by_cases h0 : db.memtable.len = 0
  · rw [if_pos h0] at h
    injection h with h
    subst h
    exact h0
  · rw [if_neg h0] at h
    simp only [] at h
    cases hr : SSTableReader.new
        ((db.memtable.iter.foldl builderStep SSTableBuilder.new).finish) with
    | error e =>
      rw [hr] at h
      exact absurd h (by simp)
    | ok r =>
      rw [hr] at h
      injection h with h
      subst h
      rfl

theorem c9_flush_idempotent (db db2 : Database)
    (h : Database.flush db = Except.ok db2) :
    Database.flush db2 = Except.ok db2 := by
  have h2 : db2.memtable.len = 0 := flush_memtable_empties db db2 h
  unfold Database.flush Database.flush_memtable
  rw [if_pos h2]

/-- Engine after one set on a fresh directory. -/
def c9db1 : Database :=
  match Database.set (Database.new ⟨[], []⟩) [107] [118] with
  | .ok d => d
  | .error _ => Database.new ⟨[], []⟩

/-- Engine after flushing `c9db1`. -/
def c9db2 : Database :=
  match Database.flush c9db1 with
  | .ok d => d
  | .error _ => Database.new ⟨[], []⟩

/-- Witness for C9: one set, then a flush, then the idempotent reflush. -/
theorem c9_flush_idempotent_witness :
    Database.flush c9db1 = Except.ok c9db2 ∧
    Database.flush c9db2 = Except.ok c9db2 := by
  have h1 : Database.flush c9db1 = Except.ok c9db2 := rfl
  exact ⟨h1, c9_flush_idempotent c9db1 c9db2 h1⟩

/-- C10: `Database::new` on a directory with existing tables or WAL
content yields an engine with empty memtable and table list whose reads
are all absent, and leaves the directory contents (including the WAL
bytes, opened append-mode without truncation) untouched. -/
theorem c10_new_ignores_existing_state (d : DirState) (k : Str) :
    Database.get (Database.new d) k = none ∧
    (Database.new d).sstables = [] ∧
    (Database.new d).dir = d :=
  ⟨rfl, rfl, rfl⟩

/-- Counterexample to C7 as stated: after `set(k, v)` followed by
`del(k)` the entry for `k` contributes the key length plus the replaced
value length, not the key length alone. -/
theorem c7_del_size_counterexample :
    ¬ ((MemTable.del (MemTable.set MemTable.new [107] [118]) [107]).size_bytes
      = ([107] : Str).length) := by
  decide

/-- C7 amended: `size_bytes` counts each key once at first insertion plus
the current value length per live entry, except that `del` over an
existing entry does not adjust the value accounting: deleting a present
key leaves `size_bytes` unchanged, so after `set(k, v)` then `del(k)` the
entry contributes `len(k) + len(v)`. -/
theorem c7_amended_size_accounting :
    (∀ k v : Str, ((MemTable.set MemTable.new k v).del k).size_bytes
      = k.length + v.length) ∧
    (∀ (mt : MemTable) (k : Str), mt.get k ≠ none →
      (mt.del k).size_bytes = mt.size_bytes) := by
  constructor
  · intro k v
    have hset : MemTable.set MemTable.new k v =
        ⟨[(k, some v)], k.length + v.length⟩ := by
      unfold MemTable.set MemTable.new
      simp [mapGet, mapInsert]
    rw [hset]
    unfold MemTable.del
    simp [mapGet]
  · intro mt k h
    unfold MemTable.del
    unfold MemTable.get at h
    cases hg : mapGet k mt.map with
    | none => exact absurd hg h
    | some w => rfl

/-- Witness for C7 amended at a concrete one-entry memtable. -/
theorem c7_amended_witness :
    (MemTable.set MemTable.new [107] [118]).get [107] ≠ none ∧
    ((MemTable.set MemTable.new [107] [118]).del [107]).size_bytes
      = (MemTable.set MemTable.new [107] [118]).size_bytes :=
  ⟨by decide, c7_amended_size_accounting.2 _ [107] (by decide)⟩

/-- Counterexample to C6 as stated: a WAL holding one well-formed SET
record followed by the single byte 3 (an unknown opcode) makes `load`
fail with the corruption error instead of succeeding with the prior
record applied. -/
theorem c6_load_fails_on_malformed_tail :
    Database.load ⟨walSetBytes [107] [118] ++ [3], []⟩ = Except.error () := rfl

theorem walRecordsBytes_cons (r : Str × Option Str) (tl : List (Str × Option Str)) :
    walRecordsBytes (r :: tl) = walRecordBytes r ++ walRecordsBytes tl := by
  simp [walRecordsBytes]

theorem walRecordBytes_len_ge (r : Str × Option Str) :
    1 ≤ (walRecordBytes r).length := by
  obtain ⟨k, vo⟩ := r
  cases vo <;> simp [walRecordBytes, walSetBytes, walDelBytes]

theorem walNext_record (r : Str × Option Str) (rest : List Nat)
    (hk : r.1.length < 4294967296)
    (hv : ∀ v, r.2 = some v → v.length < 4294967296) :
    walNext (walRecordBytes r ++ rest) = WalStep.record r.1 r.2 rest := by
  obtain ⟨k, vo⟩ := r
  cases vo with
  | some v =>
    have hshape : walRecordBytes (k, some v) ++ rest =
        [OP_SET] ++ (u32Bytes k.length ++ (k ++ (u32Bytes v.length ++ (v ++ rest)))) := by
      simp [walRecordBytes, walSetBytes, List.append_assoc]
    rw [hshape]
    unfold walNext
    rw [readExact_append 1 [OP_SET] _ rfl]
    simp only []
    rw [readExact_append 4 _ _ (u32Bytes_length _)]
    simp only [leNum_u32 _ hk]
    rw [readExact_append k.length _ _ rfl]
    simp only []
    rw [if_pos trivial]
    rw [readExact_append 4 _ _ (u32Bytes_length _)]
    simp only [leNum_u32 _ (hv v rfl)]
    rw [readExact_append v.length _ _ rfl]
  | none =>
    have hshape : walRecordBytes (k, none) ++ rest =
        [OP_DEL] ++ (u32Bytes k.length ++ (k ++ rest)) := by
      simp [walRecordBytes, walDelBytes, List.append_assoc]
    rw [hshape]
    unfold walNext
    rw [readExact_append 1 [OP_DEL] _ rfl]
    simp only []
    rw [readExact_append 4 _ _ (u32Bytes_length _)]
    simp only [leNum_u32 _ hk]
    rw [readExact_append k.length _ _ rfl]
    simp only []
    rw [if_neg (by decide), if_pos trivial]

theorem walReplay_stops_at_err (rs : List (Str × Option Str)) (s : List Nat)
    (mt : MemTable) (fuel : Nat)
    (hb : ∀ r ∈ rs, r.1.length < 4294967296 ∧
      ∀ v, r.2 = some v → v.length < 4294967296)
    (herr : walNext s = WalStep.err)
    (hfuel : (walRecordsBytes rs ++ s).length < fuel) :
    walReplayFuel fuel (walRecordsBytes rs ++ s) mt = Except.error () := by
  induction rs generalizing mt fuel with
  | nil =>
    cases fuel with
    | zero => exact absurd hfuel (Nat.not_lt_zero _)
    | succ f =>
      show walReplayFuel (f + 1) (walRecordsBytes [] ++ s) mt = Except.error ()
      rw [show walRecordsBytes [] ++ s = s from by simp [walRecordsBytes]]
      unfold walReplayFuel
      rw [herr]
  | cons r tl ih =>
    cases fuel with
    | zero => exact absurd hfuel (Nat.not_lt_zero _)
    | succ f =>
      obtain ⟨hk, hv⟩ := hb r (List.mem_cons_self _ _)
      rw [walRecordsBytes_cons, List.append_assoc]
      unfold walReplayFuel
      rw [walNext_record r _ hk hv]
      have hrec : (walRecordsBytes tl ++ s).length < f := by
        have h1 := walRecordBytes_len_ge r
        rw [walRecordsBytes_cons] at hfuel
        simp only [List.length_append] at hfuel ⊢
        omega
      obtain ⟨rk, rvo⟩ := r
      cases rvo with
      | some v => exact ih _ _ (fun q hq => hb q (List.mem_cons_of_mem _ hq)) hrec
      | none => exact ih _ _ (fun q hq => hb q (List.mem_cons_of_mem _ hq)) hrec

/-- C6 amended: when the WAL consists of well-formed records followed by
a malformed suffix (a truncated record or an unknown opcode), replay
stops at the first malformed record and `load` fails with the error
propagated by `entry?`; the prior records are discarded with the failed
load rather than kept. -/
theorem c6_amended_load_errors (rs : List (Str × Option Str)) (s : List Nat)
    (fs : List (Str × List Nat))
    (hb : ∀ r ∈ rs, r.1.length < 4294967296 ∧
      ∀ v, r.2 = some v → v.length < 4294967296)
    (herr : walNext s = WalStep.err) :
    Database.load ⟨walRecordsBytes rs ++ s, fs⟩ = Except.error () := by
  unfold Database.load walReplayAll
  rw [walReplay_stops_at_err rs s MemTable.new _ hb herr (Nat.lt_succ_self _)]

/-- Witness for C6 amended at one SET record and an unknown-opcode byte. -/
theorem c6_amended_witness :
    Database.load ⟨walRecordsBytes [([107], some [118])] ++ [3], []⟩ =
      Except.error () :=
  c6_amended_load_errors [([107], some [118])] [3] [] (by decide) rfl

set_option maxRecDepth 4000

/-- Engine after: set k to v1, compact, set k to v2, flush.  In session
order the newest table holds v2. -/
def c1db : Database :=
  match (do
    let d1 ← Database.set (Database.new ⟨[], []⟩) [107] [118, 49]
    let d2 ← Database.compact d1
    let d3 ← Database.set d2 [107] [118, 50]
    Database.flush d3 : Except Unit Database) with
  | .ok d => d
  | .error _ => Database.new ⟨[], []⟩

/-- The engine obtained by reopening the directory of `c1db`. -/
def c1loaded : Database :=
  match Database.load c1db.dir with
  | .ok d => d
  | .error _ => Database.new ⟨[], []⟩

/-- C1 failing run: before closing, `get k` returns v2; after reopening
the same directory, `load` succeeds but `get k` returns the stale v1,
because "sstable_compacted_2.sst" sorts lexically after "sstable_3.sst"
(the byte of the letter c exceeds every digit byte), so the descending
filename sort puts the older compacted table first in the reader walk. -/
theorem c1_reopen_after_compact_then_flush_returns_stale_value :
    Database.get c1db [107] = some [118, 50] ∧
    Database.load c1db.dir = Except.ok c1loaded ∧
    Database.get c1loaded [107] = some [118, 49] :=
  ⟨rfl, rfl, rfl⟩

/-- Engine after: set "ab" to "1", flush. -/
def c4db : Database :=
  match (do
    let d1 ← Database.set (Database.new ⟨[], []⟩) [97, 98] [49]
    Database.flush d1 : Except Unit Database) with
  | .ok d => d
  | .error _ => Database.new ⟨[], []⟩

/-- C4 failing run: with the single live pair ("ab", "1") on disk,
`get_by_prefix("a")` returns the single value "" instead of "1": the
table scan runs past the data region into the index bytes, re-parses the
index entry for "ab" as a data entry with an empty value, and the later
map insert overwrites the real value. -/
theorem c4_get_by_prefix_overrun :
    Database.prefixGet c4db [97] = [[]] ∧
    Database.get c4db [97, 98] = some [49] ∧
    ([[]] : List Str) ≠ [[49]] :=
  ⟨rfl, rfl, by decide⟩

/-- Reader over the table built from the single entry ("ab", "1"). -/
def c5rdr : SSTableReader :=
  match SSTableReader.new (buildAll [([97, 98], some [49])]).finish with
  | .ok r => r
  | .error _ => ⟨[], []⟩

/-- C5 failing run: on a well-formed single-entry table, scanning the
range from "a" to "z" (which covers every stored key) returns the stored
pair and then a spurious second pair ("ab", ""), parsed from the index
region after the scan loop runs past the end of the data region. -/
theorem c5_scan_returns_extra_pairs :
    (([97] : Str) ≤ [122]) ∧
    SSTableReader.scan c5rdr [97] [122] =
      Except.ok [([97, 98], [49]), ([97, 98], [])] ∧
    ([([97, 98], [49]), ([97, 98], [])] : List (Str × Str)) ≠ [([97, 98], [49])] :=
  ⟨by decide, rfl, by decide⟩

/-- A 4082-byte value, sized so that the two-entry table below splits
into an 8-byte first block and a second block, as the block-size check in
the builder dictates. -/
def v4082 : Str := List.replicate 4082 97

/-- Second key of the trap table. -/
def k2C3 : Str := [0, 0, 0]

/-- The lookup key that the overrunning block scan fabricates out of the
index region: four zero bytes (the high half of the u64 offset 8) followed
by the four low bytes of the footer value 4101. -/
def trapKey : Str := [0, 0, 0, 0, 5, 16, 0, 0]

/-- The two entries of the trap table, in ascending key order. -/
def c3entries : List (Str × Option Str) := [([], some []), (k2C3, some v4082)]

/-- Index of the trap table: first block at offset 0, second at offset 8. -/
def c3idx : List (Str × Nat) := [([], 0), (k2C3, 8)]

/-- File bytes of the trap table. -/
def c3file : List Nat := tableFileBytes c3entries c3idx

theorem v4082_length : v4082.length = 4082 := by
  rw [v4082]
  exact List.length_replicate _ _

theorem e2C3_bytes_length : (entryBytes (k2C3, some v4082)).length = 4093 := by
  show (u32Bytes k2C3.length ++ k2C3 ++ u32Bytes v4082.length ++ v4082).length = 4093
  simp only [List.length_append, u32Bytes_length, v4082_length, k2C3,
    List.length_cons, List.length_nil]

theorem c3data_eq : dataBytes c3entries =
    [0, 0, 0, 0, 0, 0, 0, 0] ++ (entryBytes (k2C3, some v4082) ++ []) := rfl

theorem c3data_length : (dataBytes c3entries).length = 4101 := by
  rw [c3data_eq]
  simp only [List.length_append, e2C3_bytes_length]
  rfl

theorem c3esz : 4 + k2C3.length + 4 + v4082.length = 4093 := by
  rw [v4082_length]
  rfl

theorem c3buildAll_eq : buildAll c3entries =
    ⟨[0, 0, 0, 0, 0, 0, 0, 0], entryBytes (k2C3, some v4082), [([], 0)], 8, some k2C3⟩ := by
  have hstep1 : builderStep SSTableBuilder.new ([], some []) =
      ⟨[], [0, 0, 0, 0, 0, 0, 0, 0], [], 0, some []⟩ := rfl
  have hb1 : buildAll c3entries =
      builderStep ⟨[], [0, 0, 0, 0, 0, 0, 0, 0], [], 0, some []⟩ (k2C3, some v4082) := by
    unfold buildAll c3entries
    rw [List.foldl_cons, List.foldl_cons, List.foldl_nil, hstep1]
  rw [hb1, builderStep_some, add_eq_addRaw, c3esz]
  rfl

theorem c3flushblock_eq : SSTableBuilder.flush_block
    ⟨[0, 0, 0, 0, 0, 0, 0, 0], entryBytes (k2C3, some v4082), [([], 0)], 8, some k2C3⟩ =
    ⟨[0, 0, 0, 0, 0, 0, 0, 0] ++ entryBytes (k2C3, some v4082), [], c3idx, 4101, none⟩ := by
  unfold SSTableBuilder.flush_block
  rw [if_neg (entryBytes_ne_nil (k2C3, some v4082))]
  simp only []
  rw [e2C3_bytes_length]
  rfl

theorem c3finish_eq : (buildAll c3entries).finish = c3file := by
  rw [c3buildAll_eq]
  unfold SSTableBuilder.finish
  rw [c3flushblock_eq]
  show ([0, 0, 0, 0, 0, 0, 0, 0] ++ entryBytes (k2C3, some v4082)) ++
      idxRegionBytes c3idx ++ u64Bytes 4101 = c3file
  unfold c3file tableFileBytes
  rw [c3data_length, c3data_eq, List.append_nil]

theorem c3goodIndex : goodIndex c3entries c3idx := by
  refine ⟨?_, ?_, ?_⟩
  · unfold sortedMap c3idx
    decide
  · intro p hp
    rcases List.mem_cons.mp hp with h | h
    · exact ⟨0, by decide, by rw [h]; rfl, by rw [h]; rfl⟩
    · rw [List.mem_singleton.mp h]
      exact ⟨1, by decide, rfl, rfl⟩
  · intro _
    exact ⟨([], some []), rfl, List.mem_cons_self _ _⟩

theorem c3bounded : entriesBounded c3entries := by
  intro e he
  rcases List.mem_cons.mp he with h | h
  · rw [h]
    exact ⟨by decide, by intro v hv; injection hv with hv; rw [← hv]; decide⟩
  · rw [List.mem_singleton.mp h]
    refine ⟨by decide, ?_⟩
    intro v hv
    injection hv with hv
    rw [← hv, v4082_length]
    decide

theorem c3reader : SSTableReader.new c3file = Except.ok ⟨c3file, c3idx⟩ :=
  readerNew_built c3entries c3idx c3goodIndex c3bounded
    (by rw [c3data_length]; decide)

theorem exceptBind_ok {α β : Type} (a : α) (f : α → Except Unit β) :
    (Except.ok a >>= f) = f a := rfl

theorem memSet_new_key (mt : MemTable) (k v : Str) (h : mapGet k mt.map = none) :
    mt.set k v = ⟨mapInsert k (some v) mt.map, mt.size_bytes + k.length + v.length⟩ := by
  unfold MemTable.set
  rw [h]

/-- Engine after the first set on the empty directory. -/
def c3db1 : Database :=
  ⟨⟨[1, 0, 0, 0, 0, 0, 0, 0, 0], []⟩, ⟨[([], some [])], 0⟩, [], .Disabled, 0, 1⟩

/-- Engine after the second set. -/
def c3db2 : Database :=
  ⟨⟨[1, 0, 0, 0, 0, 0, 0, 0, 0] ++ walSetBytes k2C3 v4082, []⟩,
    ⟨c3entries, 4085⟩, [], .Disabled, 0, 1⟩

/-- Filename of the trap table, written at clock tick 1. -/
def c3name : Str := sstNameHead ++ natDigits 1 ++ sstExt

/-- Engine after the flush that seals the trap table. -/
def c3db3 : Database :=
  ⟨⟨[], [(c3name, c3file)]⟩, MemTable.new, [⟨c3file, c3idx⟩], .Disabled, 0, 2⟩

theorem c3set1 : Database.set (Database.new ⟨[], []⟩) [] [] = Except.ok c3db1 := rfl

theorem c3mt_eq : MemTable.set ⟨[([], some [])], 0⟩ k2C3 v4082 = ⟨c3entries, 4085⟩ := by
  rw [memSet_new_key ⟨[([], some [])], 0⟩ k2C3 v4082 rfl]
  rw [show mapInsert k2C3 (some v4082) [([], some [])] = c3entries from rfl]
  rw [show (⟨[([], some [])], 0⟩ : MemTable).size_bytes + k2C3.length + v4082.length = 4085
    from by rw [v4082_length]; rfl]

theorem c3set2 : Database.set c3db1 k2C3 v4082 = Except.ok c3db2 := by
  unfold Database.set
  simp only []
  rw [show c3db1.memtable.set k2C3 v4082 = ⟨c3entries, 4085⟩ from c3mt_eq]
  rw [if_neg (by decide)]
  rfl

theorem c3flush : Database.flush c3db2 = Except.ok c3db3 := by
  unfold Database.flush Database.flush_memtable
  rw [if_neg (by decide)]
  simp only []
  rw [show c3db2.memtable.iter.foldl builderStep SSTableBuilder.new = buildAll c3entries
    from rfl]
  rw [c3finish_eq, c3reader]
  rfl

theorem c3search : SSTableReader.get ⟨c3file, c3idx⟩ trapKey =
    Except.ok (SearchResult.Found []) := by
  unfold SSTableReader.get
  rw [show mapPred trapKey c3idx = some (k2C3, 8) from rfl]
  simp only []
  have hshape : c3file = [0, 0, 0, 0, 0, 0, 0, 0] ++
      (entryBytes (k2C3, some v4082) ++ (idxRegionBytes c3idx ++ u64Bytes 4101)) := by
    unfold c3file tableFileBytes
    rw [c3data_length, c3data_eq]
    simp [List.append_assoc]
  have hdrop : c3file.drop 8 =
      entryBytes (k2C3, some v4082) ++ (idxRegionBytes c3idx ++ u64Bytes 4101) := by
    rw [hshape]
    rw [show (8 : Nat) = ([0, 0, 0, 0, 0, 0, 0, 0] : List Nat).length from rfl]
    exact List.drop_left _ _
  have hlen : (c3file.drop 8).length = 4128 := by
    rw [hdrop]
    simp only [List.length_append, e2C3_bytes_length]
    rfl
  rw [hlen, hdrop]
  rw [searchEntries_cons 4128 (k2C3, some v4082) _ trapKey (by decide)
    (by intro v hv; injection hv with hv; rw [← hv, v4082_length]; decide)]
  rw [if_neg (by decide), if_neg (by decide)]
  rfl

theorem c3get : Database.get c3db3 trapKey = some [] := by
  unfold Database.get
  rw [show c3db3.memtable.get trapKey = (none : Option (Option Str)) from rfl]
  simp only []
  rw [show c3db3.sstables = [⟨c3file, c3idx⟩] from rfl]
  unfold sstWalk
  rw [c3search]

/-- C3 failing run: after setting only the keys "" and 00 00 00 (the
second with a 4082-byte value, so that the table splits into two blocks)
and flushing, `get` on the never-written 8-byte key 00 00 00 00 05 10 00
00 returns Some "".  The block scan skips past the last data entry into
the index region and re-parses index bytes as an entry whose key happens
to be the lookup key, so the engine fabricates a value for a key that was
never written, where the claim requires absent. -/
theorem c3_get_returns_value_for_never_written_key :
    (do
      let d1 ← Database.set (Database.new ⟨[], []⟩) [] []
      let d2 ← Database.set d1 k2C3 v4082
      Database.flush d2 : Except Unit Database) = Except.ok c3db3 ∧
    Database.get c3db3 trapKey = some [] ∧
    trapKey ≠ [] ∧ trapKey ≠ k2C3 := by
  refine ⟨?_, c3get, by decide, by decide⟩
  show (Database.set (Database.new ⟨[], []⟩) [] [] >>= fun d1 =>
    Database.set d1 k2C3 v4082 >>= fun d2 => Database.flush d2) = Except.ok c3db3
  rw [c3set1, exceptBind_ok, c3set2, exceptBind_ok, c3flush]

/-- Entries of the second (small) table of the compaction scenario. -/
def t2entries : List (Str × Option Str) := [([120], some [121])]

/-- Index of the second table. -/
def t2idx : List (Str × Nat) := [([120], 0)]

/-- File bytes of the second table. -/
def t2file : List Nat := tableFileBytes t2entries t2idx

/-- Filename of the second table, written at clock tick 2. -/
def t2name : Str := sstNameHead ++ natDigits 2 ++ sstExt

/-- Engine after a further set of "x" to "y" on top of the trap table. -/
def c2db4 : Database :=
  ⟨⟨walSetBytes [120] [121], [(c3name, c3file)]⟩, ⟨[([120], some [121])], 2⟩,
    [⟨c3file, c3idx⟩], .Disabled, 0, 2⟩

/-- Engine with both tables sealed: the small table is newest. -/
def c2db5 : Database :=
  ⟨⟨[], [(c3name, c3file), (t2name, t2file)]⟩, MemTable.new,
    [⟨t2file, t2idx⟩, ⟨c3file, c3idx⟩], .Disabled, 0, 3⟩

theorem c2set : Database.set c3db3 [120] [121] = Except.ok c2db4 := rfl

theorem c2flush : Database.flush c2db4 = Except.ok c2db5 := rfl

theorem c3file_length : c3file.length = 4136 := by
  unfold c3file tableFileBytes
  simp only [List.length_append, c3data_length, u64Bytes_length]
  rfl

theorem c3file_foot : c3file.drop 4128 = u64Bytes 4101 := by
  have hassoc : c3file = (dataBytes c3entries ++ idxRegionBytes c3idx) ++ u64Bytes 4101 := by
    unfold c3file tableFileBytes
    rw [c3data_length]
  rw [hassoc]
  rw [show (4128 : Nat) = (dataBytes c3entries ++ idxRegionBytes c3idx).length from by
    simp only [List.length_append, c3data_length]
    rfl]
  exact List.drop_left _ _

/-- Iterator over the newest (small) table. -/
def sA : SSTableIterator := ⟨t2file, 0, 10⟩

/-- Iterator over the trap table. -/
def sB : SSTableIterator := ⟨c3file, 0, 4101⟩

theorem c2intoA : SSTableReader.into_iter ⟨t2file, t2idx⟩ = sA := rfl

theorem into_iter_eq (f : List Nat) (idx : List (Str × Nat)) (n e : Nat)
    (hn : f.length = n) (h8 : ¬ n < 8) (he : leNum (f.drop (n - 8)) = e) :
    SSTableReader.into_iter ⟨f, idx⟩ = ⟨f, 0, e⟩ := by
  simp only [SSTableReader.into_iter]
  rw [hn, if_neg h8, he]

theorem c2intoB : SSTableReader.into_iter ⟨c3file, c3idx⟩ = sB :=
  into_iter_eq c3file c3idx 4136 4101 c3file_length (by decide)
    (by rw [show (4136 : Nat) - 8 = 4128 from rfl, c3file_foot]; rfl)

theorem t2file_length : t2file.length = 31 := rfl

/-- Second iterator state on the small table: past its single entry. -/
def sA1 : SSTableIterator := ⟨t2file, 10, 10⟩

/-- Second iterator state on the trap table: past the first entry. -/
def sB1 : SSTableIterator := ⟨c3file, 8, 4101⟩

/-- Third iterator state on the trap table: at the index start. -/
def sB2 : SSTableIterator := ⟨c3file, 4101, 4101⟩

/-- One `next` of the data-region iterator when a well-formed entry sits at
the current offset strictly below the index start. -/
theorem sstIterNext_entry (it : SSTableIterator) (e : Str × Option Str) (R : List Nat)
    (hend : it.end_offset ≠ U64MAX) (hlt : it.current_offset < it.end_offset)
    (hdrop : it.file.drop it.current_offset = entryBytes e ++ R)
    (hk : e.1.length < 4294967296)
    (hv : ∀ v, e.2 = some v → v.length < TOMBSTONE) :
    sstIterNext it = some (.ok ((e.1, e.2),
      { it with current_offset := it.current_offset + (entryBytes e).length })) := by
  obtain ⟨k0, vo⟩ := e
  unfold sstIterNext
  rw [if_neg hend, if_neg (not_le_of_lt hlt)]
  simp only []
  rw [hdrop]
  cases vo with
  | some v =>
    have hvb : v.length < TOMBSTONE := hv v rfl
    have hshape : entryBytes (k0, some v) ++ R =
        u32Bytes k0.length ++ (k0 ++ (u32Bytes v.length ++ (v ++ R))) := by
      simp [entryBytes, List.append_assoc]
    rw [hshape]
    rw [readExact_append 4 _ _ (u32Bytes_length _)]
    simp only [leNum_u32 _ hk]
    rw [readExact_append k0.length _ _ rfl]
    simp only []
    rw [readExact_append 4 _ _ (u32Bytes_length _)]
    simp only [leNum_u32 _ (lt_trans hvb TOMBSTONE_lt)]
    rw [if_neg (ne_of_lt hvb)]
    rw [readExact_append v.length _ _ rfl]
    simp only [Option.some.injEq, Except.ok.injEq, Prod.mk.injEq, SSTableIterator.mk.injEq,
      entryBytes, List.length_append, u32Bytes_length, eq_self_iff_true, true_and, and_true]
    omega
  | none =>
    have hshape : entryBytes (k0, none) ++ R =
        u32Bytes k0.length ++ (k0 ++ (u32Bytes TOMBSTONE ++ R)) := by
      simp [entryBytes, List.append_assoc]
    rw [hshape]
    rw [readExact_append 4 _ _ (u32Bytes_length _)]
    simp only [leNum_u32 _ hk]
    rw [readExact_append k0.length _ _ rfl]
    simp only []
    rw [readExact_append 4 _ _ (u32Bytes_length _)]
    simp only [leNum_u32 _ TOMBSTONE_lt]
    rw [if_pos trivial]
    simp only [Option.some.injEq, Except.ok.injEq, Prod.mk.injEq, SSTableIterator.mk.injEq,
      entryBytes, List.length_append, u32Bytes_length, eq_self_iff_true, true_and, and_true]
    omega

theorem c3shape : c3file = entryBytes ([], some []) ++
    (entryBytes (k2C3, some v4082) ++ (idxRegionBytes c3idx ++ u64Bytes 4101)) := by
  unfold c3file tableFileBytes
  rw [c3data_length, c3data_eq]
  rw [show entryBytes ([], some []) = [0, 0, 0, 0, 0, 0, 0, 0] from rfl]
  simp [List.append_assoc]

theorem c3drop8 : c3file.drop 8 =
    entryBytes (k2C3, some v4082) ++ (idxRegionBytes c3idx ++ u64Bytes 4101) := by
  rw [c3shape]
  rw [show (8 : Nat) = (entryBytes ([], some [])).length from rfl]
  exact List.drop_left _ _

theorem nextA : sstIterNext sA = some (.ok (([120], some [121]), sA1)) := rfl

theorem nextA1 : sstIterNext sA1 = none := rfl

theorem nextB2 : sstIterNext sB2 = none := rfl

theorem nextB : sstIterNext sB = some (.ok (([], some []), sB1)) := by
  rw [sstIterNext_entry sB ([], some [])
    (entryBytes (k2C3, some v4082) ++ (idxRegionBytes c3idx ++ u64Bytes 4101))
    (by decide) (by decide)
    (by rw [show sB.file.drop sB.current_offset = c3file.drop 0 from rfl,
          List.drop_zero, c3shape])
    (by decide) (by intro v hv; injection hv with hv; rw [← hv]; decide)]
  rfl

theorem nextB1 : sstIterNext sB1 = some (.ok ((k2C3, some v4082), sB2)) := by
  rw [sstIterNext_entry sB1 (k2C3, some v4082)
    (idxRegionBytes c3idx ++ u64Bytes 4101)
    (by decide) (by decide)
    (by rw [show sB1.file.drop sB1.current_offset = c3file.drop 8 from rfl, c3drop8])
    (by decide)
    (by intro v hv; injection hv with hv; rw [← hv, v4082_length]; decide)]
  rw [e2C3_bytes_length]
  rfl

theorem mergeBest_nil (i : Nat) (best : Option (Nat × Str)) :
    mergeBest [] i best = best := rfl

theorem mergeBest_cons_ok_none (it : SSTableIterator) (rest : List SSTableIterator)
    (i : Nat) (k : Str) (vo : Option Str) (it2 : SSTableIterator)
    (h : sstIterNext it = some (.ok ((k, vo), it2))) :
    mergeBest (it :: rest) i none = mergeBest rest (i + 1) (some (i, k)) := by
  conv_lhs => rw [mergeBest]
  rw [h]

theorem mergeBest_cons_ok_some (it : SSTableIterator) (rest : List SSTableIterator)
    (i j : Nat) (mk k : Str) (vo : Option Str) (it2 : SSTableIterator)
    (h : sstIterNext it = some (.ok ((k, vo), it2))) :
    mergeBest (it :: rest) i (some (j, mk)) =
      mergeBest rest (i + 1) (if k < mk then some (i, k) else some (j, mk)) := by
  conv_lhs => rw [mergeBest]
  rw [h]
  by_cases hlt : k < mk
  · simp only [if_pos hlt]
  · simp only [if_neg hlt]

theorem mergeBest_cons_none (it : SSTableIterator) (rest : List SSTableIterator)
    (i : Nat) (best : Option (Nat × Str)) (h : sstIterNext it = none) :
    mergeBest (it :: rest) i best = mergeBest rest (i + 1) best := by
  conv_lhs => rw [mergeBest]
  rw [h]

theorem c2best1 : mergeBest [sA, sB] 0 none = some (1, []) := by
  rw [mergeBest_cons_ok_none sA [sB] 0 [120] (some [121]) sA1 nextA]
  rw [mergeBest_cons_ok_some sB [] 1 0 [120] [] (some []) sB1 nextB]
  rw [if_pos (by decide)]
  rw [mergeBest_nil]

theorem c2best2 : mergeBest [sA, sB1] 0 none = some (1, k2C3) := by
  rw [mergeBest_cons_ok_none sA [sB1] 0 [120] (some [121]) sA1 nextA]
  rw [mergeBest_cons_ok_some sB1 [] 1 0 [120] k2C3 (some v4082) sB2 nextB1]
  rw [if_pos (by decide)]
  rw [mergeBest_nil]

theorem c2best3 : mergeBest [sA, sB2] 0 none = some (0, [120]) := by
  rw [mergeBest_cons_ok_none sA [sB2] 0 [120] (some [121]) sA1 nextA]
  rw [mergeBest_cons_none sB2 [] 1 (some (0, [120])) nextB2]
  rw [mergeBest_nil]

theorem c2best4 : mergeBest [sA1, sB2] 0 none = none := by
  rw [mergeBest_cons_none sA1 [sB2] 0 none nextA1]
  rw [mergeBest_cons_none sB2 [] 1 none nextB2]
  rw [mergeBest_nil]

/-- One iteration of the compaction merge loop: the chosen iterator emits
a live entry, the builder adds it, every iterator at the same key advances. -/
theorem mergeLoopFuel_step (fuel : Nat) (its : List SSTableIterator)
    (builder : SSTableBuilder) (idx : Nat) (mk k v : Str)
    (it it2 : SSTableIterator)
    (hbest : mergeBest its 0 none = some (idx, mk))
    (hit : its[idx]? = some it)
    (hnext : sstIterNext it = some (.ok ((k, some v), it2))) :
    mergeLoopFuel (fuel + 1) its builder =
      mergeLoopFuel fuel (mergeAdvance k idx it2 0 its) (builder.add k v) := by
  conv_lhs => rw [mergeLoopFuel]
  rw [hbest]
  simp only []
  rw [hit]
  simp only []
  rw [hnext]

/-- Final iteration of the merge loop: no iterator has an entry left. -/
theorem mergeLoopFuel_done (fuel : Nat) (its : List SSTableIterator)
    (builder : SSTableBuilder) (hbest : mergeBest its 0 none = none) :
    mergeLoopFuel (fuel + 1) its builder = .ok builder := by
  conv_lhs => rw [mergeLoopFuel]
  rw [hbest]

/-- Builder state after the merge emits the first entry ("",""). -/
def b1val : SSTableBuilder := ⟨[], [0, 0, 0, 0, 0, 0, 0, 0], [], 0, some []⟩

/-- Builder state after the merge emits the second entry: the first block
has flushed. -/
def b2val : SSTableBuilder :=
  ⟨[0, 0, 0, 0, 0, 0, 0, 0], entryBytes (k2C3, some v4082), [([], 0)], 8, some k2C3⟩

/-- Builder state after the merge emits the third entry ("x","y"): the
4093-byte block has flushed at offset 8. -/
def b3val : SSTableBuilder :=
  ⟨[0, 0, 0, 0, 0, 0, 0, 0] ++ entryBytes (k2C3, some v4082),
    entryBytes ([120], some [121]), c3idx, 4101, some [120]⟩

theorem addStep1 : SSTableBuilder.add SSTableBuilder.new [] [] = b1val := rfl

theorem addStep2 : SSTableBuilder.add b1val k2C3 v4082 = b2val := by
  rw [add_eq_addRaw, c3esz]
  rfl

theorem addStep3 : SSTableBuilder.add b2val [120] [121] = b3val := by
  rw [add_eq_addRaw]
  unfold addRaw
  have hcond : b2val.block_buffer ≠ [] ∧
      BLOCK_SIZE < b2val.block_buffer.length +
        (4 + ([120] : Str).length + 4 + ([121] : Str).length) := by
    rw [show b2val.block_buffer = entryBytes (k2C3, some v4082) from rfl]
    refine ⟨entryBytes_ne_nil _, ?_⟩
    rw [e2C3_bytes_length]
    decide
  rw [if_pos hcond]
  rw [show b2val.flush_block =
    ⟨[0, 0, 0, 0, 0, 0, 0, 0] ++ entryBytes (k2C3, some v4082), [], c3idx, 4101, none⟩
    from c3flushblock_eq]
  rfl

/-- Entries of the compacted table in merged key order. -/
def mergedEntries : List (Str × Option Str) :=
  [([], some []), (k2C3, some v4082), ([120], some [121])]

/-- Index of the compacted table: three blocks at 0, 8 and 4101. -/
def mergedIdx : List (Str × Nat) := [([], 0), (k2C3, 8), ([120], 4101)]

/-- File bytes of the compacted table. -/
def c2file : List Nat := tableFileBytes mergedEntries mergedIdx

theorem mergedData_eq : dataBytes mergedEntries =
    [0, 0, 0, 0, 0, 0, 0, 0] ++
      (entryBytes (k2C3, some v4082) ++ (entryBytes ([120], some [121]) ++ [])) := rfl

theorem mergedData_length : (dataBytes mergedEntries).length = 4111 := by
  rw [mergedData_eq]
  simp only [List.length_append, e2C3_bytes_length]
  rfl

theorem c2finish : b3val.finish = c2file := by
  unfold SSTableBuilder.finish b3val
  rw [show SSTableBuilder.flush_block
      ⟨[0, 0, 0, 0, 0, 0, 0, 0] ++ entryBytes (k2C3, some v4082),
        entryBytes ([120], some [121]), c3idx, 4101, some [120]⟩ =
      ⟨([0, 0, 0, 0, 0, 0, 0, 0] ++ entryBytes (k2C3, some v4082)) ++
        entryBytes ([120], some [121]), [], mergedIdx, 4111, none⟩ from by
    unfold SSTableBuilder.flush_block
    rw [if_neg (entryBytes_ne_nil ([120], some [121]))]
    simp only []
    rw [show (entryBytes ([120], some [121])).length = 10 from rfl]
    rfl]
  show (([0, 0, 0, 0, 0, 0, 0, 0] ++ entryBytes (k2C3, some v4082)) ++
      entryBytes ([120], some [121])) ++ idxRegionBytes mergedIdx ++ u64Bytes 4111 = c2file
  unfold c2file tableFileBytes
  rw [mergedData_length, mergedData_eq]
  simp [List.append_assoc]

theorem mergedGoodIndex : goodIndex mergedEntries mergedIdx := by
  refine ⟨?_, ?_, ?_⟩
  · unfold sortedMap mergedIdx
    decide
  · intro p hp
    rcases List.mem_cons.mp hp with h | hp2
    · exact ⟨0, by decide, by rw [h]; rfl, by rw [h]; rfl⟩
    · rcases List.mem_cons.mp hp2 with h | h
      · exact ⟨1, by decide, by rw [h]; rfl, by rw [h]; rfl⟩
      · rw [List.mem_singleton.mp h]
        refine ⟨2, by decide, rfl, ?_⟩
        rw [show mergedEntries.take 2 = c3entries from rfl, c3data_length]
  · intro _
    exact ⟨([], some []), rfl, List.mem_cons_self _ _⟩

theorem mergedBounded : entriesBounded mergedEntries := by
  intro e he
  rcases List.mem_cons.mp he with h | he2
  · rw [h]
    exact ⟨by decide, by intro v hv; injection hv with hv; rw [← hv]; decide⟩
  · rcases List.mem_cons.mp he2 with h | h
    · rw [h]
      refine ⟨by decide, ?_⟩
      intro v hv
      injection hv with hv
      rw [← hv, v4082_length]
      decide
    · rw [List.mem_singleton.mp h]
      exact ⟨by decide, by intro v hv; injection hv with hv; rw [← hv]; decide⟩

theorem mergedReader : SSTableReader.new c2file = Except.ok ⟨c2file, mergedIdx⟩ :=
  readerNew_built mergedEntries mergedIdx mergedGoodIndex mergedBounded
    (by rw [mergedData_length]; decide)

/-- The complete merge run of the compaction counterexample. -/
theorem c2mergeRun : mergeLoopFuel (4166 + 1 + 1 + 1 + 1) [sA, sB] SSTableBuilder.new =
    Except.ok b3val := by
  rw [mergeLoopFuel_step (4166 + 1 + 1 + 1) [sA, sB] SSTableBuilder.new 1 [] [] []
    sB sB1 c2best1 rfl nextB]
  rw [show mergeAdvance [] 1 sB1 0 [sA, sB] = [sA, sB1] from rfl]
  rw [addStep1]
  rw [mergeLoopFuel_step (4166 + 1 + 1) [sA, sB1] b1val 1 k2C3 k2C3 v4082
    sB1 sB2 c2best2 rfl nextB1]
  rw [show mergeAdvance k2C3 1 sB2 0 [sA, sB1] = [sA, sB2] from rfl]
  rw [addStep2]
  rw [mergeLoopFuel_step (4166 + 1) [sA, sB2] b2val 0 [120] [120] [121]
    sA sA1 c2best3 rfl nextA]
  rw [show mergeAdvance [120] 0 sA1 0 [sA, sB2] = [sA1, sB2] from rfl]
  rw [addStep3]
  exact mergeLoopFuel_done 4166 [sA1, sB2] b3val c2best4

/-- Filename of the compacted table, written at clock tick 3. -/
def c2name : Str := sstCompNameHead ++ natDigits 3 ++ sstExt

/-- Engine after the compaction of the two tables. -/
def c2post : Database :=
  ⟨⟨[], [(c2name, c2file)]⟩, MemTable.new, [⟨c2file, mergedIdx⟩], .Disabled, 4, 5⟩

/-- The directory contents after a compaction that wrote `f` under `name`:
every other `*.sst` file is deleted. -/
def compactFiles (files : List (Str × List Nat)) (name : Str) (f : List Nat) :
    List (Str × List Nat) :=
  (files ++ [(name, f)]).filter (fun x => !(hasSstExt x.1) || x.1 == name)

/-- Characterization of a successful `Database::compact` run with an
already-empty memtable, in terms of the merge result and the new reader. -/
theorem compact_spec (db : Database) (hmt : db.memtable.len = 0)
    (hne : db.sstables.isEmpty = false)
    (its : List SSTableIterator) (hits : db.sstables.map SSTableReader.into_iter = its)
    (fuel : Nat) (hfuel : (its.map (fun it => it.file.length + 1)).sum + 1 = fuel)
    (b : SSTableBuilder) (hmerge : mergeLoopFuel fuel its SSTableBuilder.new = .ok b)
    (f : List Nat) (hf : b.finish = f)
    (r : SSTableReader) (hr : SSTableReader.new f = .ok r) :
    Database.compact db = Except.ok { db with
      dir := { db.dir with
        files := compactFiles db.dir.files (sstCompNameHead ++ natDigits db.clock ++ sstExt) f }
      sstables := [r]
      last_compaction_time := db.clock + 1
      clock := db.clock + 1 + 1 } := by
  unfold Database.compact
  rw [show db.flush_memtable = Except.ok db from by
    unfold Database.flush_memtable
    rw [if_pos hmt]]
  simp only []
  rw [hne]
  rw [if_neg (by decide : ¬ false = true)]
  rw [hits, hfuel, hmerge]
  simp only []
  rw [hf, hr]
  rfl

theorem c2iters : c2db5.sstables.map SSTableReader.into_iter = [sA, sB] := by
  rw [show c2db5.sstables = [(⟨t2file, t2idx⟩ : SSTableReader), ⟨c3file, c3idx⟩] from rfl]
  rw [List.map_cons, List.map_cons, List.map_nil, c2intoA, c2intoB]

theorem c2fuel : (([sA, sB].map (fun it => it.file.length + 1)).sum + 1 : Nat) =
    4166 + 1 + 1 + 1 + 1 := by
  simp only [List.map_cons, List.map_nil, List.sum_cons, List.sum_nil]
  rw [show sA.file = t2file from rfl, show sB.file = c3file from rfl,
    t2file_length, c3file_length]
  decide

theorem c2compact : Database.compact c2db5 = Except.ok c2post := by
  rw [compact_spec c2db5 rfl rfl [sA, sB] c2iters (4166 + 1 + 1 + 1 + 1) c2fuel
    b3val c2mergeRun c2file c2finish ⟨c2file, mergedIdx⟩ mergedReader]
  rfl

theorem c2preGet : Database.get c2db5 trapKey = some [] := by
  unfold Database.get
  rw [show c2db5.memtable.get trapKey = (none : Option (Option Str)) from rfl]
  simp only []
  rw [show c2db5.sstables = [(⟨t2file, t2idx⟩ : SSTableReader), ⟨c3file, c3idx⟩] from rfl]
  unfold sstWalk
  rw [show SSTableReader.get ⟨t2file, t2idx⟩ trapKey = Except.ok SearchResult.NotFound
    from rfl]
  simp only []
  unfold sstWalk
  rw [c3search]

theorem c2postSearch : SSTableReader.get ⟨c2file, mergedIdx⟩ trapKey =
    Except.ok SearchResult.NotFound := by
  unfold SSTableReader.get
  rw [show mapPred trapKey mergedIdx = some (k2C3, 8) from rfl]
  simp only []
  have hshape2 : c2file = [0, 0, 0, 0, 0, 0, 0, 0] ++
      (entryBytes (k2C3, some v4082) ++ (entryBytes ([120], some [121]) ++
        (idxRegionBytes mergedIdx ++ u64Bytes 4111))) := by
    unfold c2file tableFileBytes
    rw [mergedData_length, mergedData_eq]
    simp [List.append_assoc]
  have hdrop2 : c2file.drop 8 = entryBytes (k2C3, some v4082) ++
      (entryBytes ([120], some [121]) ++ (idxRegionBytes mergedIdx ++ u64Bytes 4111)) := by
    rw [hshape2]
    rw [show (8 : Nat) = ([0, 0, 0, 0, 0, 0, 0, 0] : List Nat).length from rfl]
    exact List.drop_left _ _
  have hlen2 : (c2file.drop 8).length = 4151 := by
    rw [hdrop2]
    simp only [List.length_append, e2C3_bytes_length]
    rfl
  rw [hlen2, hdrop2]
  rw [searchEntries_cons 4151 (k2C3, some v4082) _ trapKey (by decide)
    (by intro v hv; injection hv with hv; rw [← hv, v4082_length]; decide)]
  rw [if_neg (by decide), if_neg (by decide)]
  rfl

theorem c2postGet : Database.get c2post trapKey = none := by
  unfold Database.get
  rw [show c2post.memtable.get trapKey = (none : Option (Option Str)) from rfl]
  simp only []
  rw [show c2post.sstables = [(⟨c2file, mergedIdx⟩ : SSTableReader)] from rfl]
  unfold sstWalk
  rw [c2postSearch]
  rfl

/-- C2 failing run: starting from the empty directory, set "" and the
3-byte key 00 00 00 (with a 4082-byte value), flush, set "x" to "y",
flush again, reaching the two-table engine `c2db5`.  Before compaction
`get` on the never-written trap key returns Some "" (the overrunning
block scan of the older table fabricates it); `compact()` succeeds and
afterwards the same `get` returns None, so compaction changed an
observable read, where the claim requires every read preserved.  The
directory part of the claim holds: exactly one `*.sst` remains. -/
theorem c2_compact_changes_observable_read :
    (do
      let d1 ← Database.set (Database.new ⟨[], []⟩) [] []
      let d2 ← Database.set d1 k2C3 v4082
      let d3 ← Database.flush d2
      let d4 ← Database.set d3 [120] [121]
      Database.flush d4 : Except Unit Database) = Except.ok c2db5 ∧
    Database.compact c2db5 = Except.ok c2post ∧
    Database.get c2db5 trapKey = some [] ∧
    Database.get c2post trapKey = none ∧
    (c2post.dir.files.filter (fun x => hasSstExt x.1)).map Prod.fst = [c2name] := by
  refine ⟨?_, c2compact, c2preGet, c2postGet, rfl⟩
  show (Database.set (Database.new ⟨[], []⟩) [] [] >>= fun d1 =>
    Database.set d1 k2C3 v4082 >>= fun d2 => Database.flush d2 >>= fun d3 =>
    Database.set d3 [120] [121] >>= fun d4 => Database.flush d4) = Except.ok c2db5
  rw [c3set1, exceptBind_ok, c3set2, exceptBind_ok, c3flush, exceptBind_ok,
    c2set, exceptBind_ok, c2flush]
